import Mathlib

/-!
# Verification of the seekfile indexer

A shallow embedding of `internal/indexer` (the in-memory file index, its
scan logic and its query engine) together with proofs about the embedded
definitions.

Modelling conventions:
* Go `time.Time` values are modelled as `Int` (nanoseconds since an epoch);
  the zero value of `time.Time` is modelled as `0`, `t.Before u` as `t < u`,
  `t.After u` as `u < t` and `t.IsZero` as `t = 0`.
* Go `int`/`int64` are modelled as `Int`.
* Go strings are Lean `String`s; Go compares strings byte-wise, which for
  valid UTF-8 agrees with the code-point lexicographic order of `String`.
* `strings.ToLower` / `strings.TrimSpace` are modelled with `Char.toLower`
  and `Char.isWhitespace` (the divergence on exotic Unicode is irrelevant to
  every statement below).
* The Go map `files map[string]FileRecord` is modelled as an association
  list `List (String × FileRecord)`; iteration order of a Go map is
  arbitrary, which is reflected by quantifying over all arrangements of the
  association list.
* The external Record Store is modelled by the log of operations issued to
  it (`StoreOp`), plus oracles in `ScanEnv` deciding which calls fail.
* `context.Context` cancellation is not modelled: all theorems describe
  runs in which the context is never cancelled.
-/

namespace Seekfile

/-! ## String helpers: ToLower, TrimSpace -/

/-- Model of `strings.ToLower`. -/
def goToLower (s : String) : String := ⟨s.data.map Char.toLower⟩

/-- Model of `strings.TrimSpace`. -/
def trimSpace (s : String) : String :=
  ⟨((s.data.dropWhile Char.isWhitespace).reverse.dropWhile Char.isWhitespace).reverse⟩

/-! ## Model of `path/filepath.Clean` (Unix rules)

`Clean` is specified lexically: split the path on `'/'`, drop empty and
`"."` elements, resolve `".."` against the preceding element (dropping a
leading `".."` of a rooted path, keeping it for a relative path), and
re-join; an empty result is `"."` (or `"/"` when rooted). -/

/-- Split a character list on `'/'` (like `strings.Split(s, "/")`). -/
def splitSlash : List Char → List (List Char)
  | [] => [[]]
  | c :: rest =>
    if c = '/' then [] :: splitSlash rest
    else
      match splitSlash rest with
      | [] => [[c]]
      | g :: gs => (c :: g) :: gs

/-- Join path elements with `'/'`. -/
def joinSlash : List (List Char) → List Char
  | [] => []
  | [p] => p
  | p :: rest => p ++ '/' :: joinSlash rest

/-- The `".."` path element. -/
def dd : List Char := ['.', '.']

/-- Process path elements against a stack (`acc` is the reversed output so
far), implementing the lexical rules of `filepath.Clean`. -/
def cleanStack (rooted : Bool) (acc : List (List Char)) : List (List Char) → List (List Char)
  | [] => acc.reverse
  | part :: rest =>
    if part = [] ∨ part = ['.'] then cleanStack rooted acc rest
    else if part = dd then
      match acc with
      | [] => if rooted then cleanStack rooted [] rest else cleanStack rooted [dd] rest
      | top :: acc2 =>
        if top = dd then cleanStack rooted (part :: top :: acc2) rest
        else cleanStack rooted acc2 rest
    else cleanStack rooted (part :: acc) rest

/-- Model of `filepath.Clean` on a character list. -/
def cleanList (l : List Char) : List Char :=
  if l = [] then ['.']
  else
    let rooted := l.head? = some '/'
    let parts := cleanStack (decide rooted) [] (splitSlash l)
    if rooted then '/' :: joinSlash parts
    else if parts = [] then ['.'] else joinSlash parts

/-- Model of `filepath.Clean`. -/
def clean (s : String) : String := ⟨cleanList s.data⟩

/-- Model of `filepath.Ext` applied to a reversed character list: returns the
reversed extension (from the final dot of the final slash-separated element). -/
def revExtChars : List Char → List Char
  | [] => []
  | c :: rest =>
    if c = '/' then []
    else if c = '.' then [c]
    else
      match revExtChars rest with
      | [] => []
      | l => c :: l

/-- Model of `filepath.Ext`: the suffix beginning at the final dot in the
final slash-separated element; empty if there is no dot. -/
def fileExt (s : String) : String := ⟨(revExtChars s.data.reverse).reverse⟩

/-! ## Data model (`FileRecord`, `Query`, `SearchResult`, statuses) -/

/-- Model of `indexer.FileRecord`. -/
structure FileRecord where
  Path : String
  Name : String
  Size : Int
  ModTime : Int
  RootPath : String
deriving DecidableEq, Repr

/-- Model of `indexer.Query`. -/
structure Query where
  NamePattern : String
  MinSize : Int
  MaxSize : Int
  ModifiedAfter : Int
  ModifiedBefore : Int
  SortField : String
  SortDescending : Bool
  Offset : Int
  Limit : Int
  Extensions : List String
deriving DecidableEq, Repr

/-- Model of `indexer.SearchResult`. -/
structure SearchResult where
  Files : List FileRecord
  Total : Int
deriving DecidableEq, Repr

/-- Model of `indexer.ScanMode`. -/
inductive ScanMode
  | incremental
  | full
deriving DecidableEq, Repr

/-- The string value of a scan mode constant. -/
def ScanMode.str : ScanMode → String
  | .incremental => "incremental"
  | .full => "full"

/-- Errors surfaced by Record Store calls during a scan (the indexer stores
`err.Error()`; we keep the error values themselves). -/
inductive IOErr
  | upsertErr (path : String)
  | deleteErr (path : String)
deriving DecidableEq, Repr

/-- Model of `indexer.ScanStatus`. `Error` is `none` for the Go empty string. -/
structure ScanStatus where
  Mode : String
  Running : Bool
  CurrentPath : String
  Processed : Int
  KnownFiles : Nat
  StartedAt : Int
  FinishedAt : Int
  LastSuccessfulRun : Int
  Error : Option IOErr
deriving DecidableEq, Repr

/-- Model of `storage.ScanState`. -/
structure ScanState where
  RootPath : String
  LastFullScan : Int
  LastIncrementalScan : Int
deriving DecidableEq, Repr

/-- Model of `storage.Record`. -/
structure StoreRecord where
  Path : String
  Name : String
  Size : Int
  ModTime : Int
  RootPath : String
deriving DecidableEq, Repr

/-- A call issued to the Record Store (write side). -/
inductive StoreOp
  | upsert (r : FileRecord)
  | del (path : String)
  | putState (s : ScanState)
deriving DecidableEq, Repr

/-! ## The in-memory map `files map[string]FileRecord` -/

/-- Model of `m[k]` map read. -/
def mapGet (m : List (String × FileRecord)) (k : String) : Option FileRecord :=
  (m.find? (fun e => e.1 == k)).map (fun e => e.2)

/-- Model of `m[k] = v` map write. -/
def mapPut (m : List (String × FileRecord)) (k : String) (v : FileRecord) :
    List (String × FileRecord) :=
  (k, v) :: m.filter (fun e => !(e.1 == k))

/-- Model of `delete(m, k)` map delete. -/
def mapDel (m : List (String × FileRecord)) (k : String) : List (String × FileRecord) :=
  m.filter (fun e => !(e.1 == k))

/-! ## Query engine: name matcher -/

/-- One element of a compiled wildcard pattern: the anchored regular
expression `^p$` built by `wildcardToRegex` consists of literal characters
(`regexp.QuoteMeta` output), `.*` (from `*`) and `.` (from `?`). -/
inductive WildTok
  | lit (c : Char)
  | one
  | star
deriving DecidableEq, Repr

/-- Compile a wildcard pattern (already lower-cased) to tokens; models
`wildcardToRegex` composed with regular-expression parsing. -/
def parseWild (l : List Char) : List WildTok :=
  l.map (fun c => if c = '*' then WildTok.star else if c = '?' then WildTok.one else WildTok.lit c)

/-- Matching of the compiled anchored pattern against a whole name, with Go
(`RE2`) semantics: `.` matches any character except a newline, `.*` any run
of non-newline characters. -/
def wildMatches : List WildTok → List Char → Bool
  | [], [] => true
  | [], _ :: _ => false
  | .lit _ :: _, [] => false
  | .lit c :: ps, x :: xs => x = c && wildMatches ps xs
  | .one :: _, [] => false
  | .one :: ps, x :: xs => !(x = '\n') && wildMatches ps xs
  | .star :: ps, [] => wildMatches ps []
  | .star :: ps, x :: xs =>
      wildMatches ps (x :: xs) || (!(x = '\n') && wildMatches (.star :: ps) xs)
termination_by p s => (s.length, p.length)

/-- Model of `strings.Contains` on character lists. -/
def containsStr (needle : List Char) : List Char → Bool
  | [] => needle.isEmpty
  | c :: t => needle.isPrefixOf (c :: t) || containsStr needle t

/-- Does the pattern contain a wildcard character (`strings.ContainsAny(s, "*?")`)? -/
def hasWildcard (s : String) : Bool :=
  s.data.any (fun c => c = '*' || c = '?')

/-- Model of `buildNameMatcher`: `none` models the `nil` matcher returned for a
pattern that is empty after trimming.  (For a non-empty trimmed pattern the
compiled regular expression always parses, since the pattern is built by
`regexp.QuoteMeta`, so the compile-failure fallback branch is dead code.) -/
def buildNameMatcher (pattern : String) : Option (String → Bool) :=
  let trimmed := trimSpace pattern
  if trimmed = "" then none
  else
    let lowered := goToLower trimmed
    if hasWildcard lowered then
      some (fun name => wildMatches (parseWild lowered.data) (goToLower name).data)
    else
      some (fun name => containsStr lowered.data (goToLower name).data)

/-- Application of the matcher as `matchesQuery` does: a `nil` matcher
accepts every name. -/
def nameMatches (pattern name : String) : Bool :=
  match buildNameMatcher pattern with
  | none => true
  | some f => f name

/-! ## Query engine: filtering -/

/-- The extension allow-set built at the top of `Search` (kept as a list;
membership is all that is ever used). -/
def normalizeExts (exts : List String) : List String :=
  exts.foldl
    (fun acc ext =>
      let normalized := goToLower (trimSpace ext)
      if normalized = "" then acc
      else if normalized.data.head? = some '.' then acc ++ [normalized]
      else acc ++ [⟨'.' :: normalized.data⟩])
    []

/-- The extension clause of `matchesQuery`. -/
def extOk (record : FileRecord) (allowedExts : List String) : Bool :=
  if allowedExts.isEmpty then true
  else
    let ext := goToLower (fileExt record.Name)
    if ext = "" then false
    else allowedExts.contains ext

/-- Model of `matchesQuery`. -/
def matchesQuery (record : FileRecord) (q : Query) (matchName : Option (String → Bool))
    (allowedExts : List String) : Bool :=
  (match matchName with
   | some f => f record.Name
   | none => true) &&
  extOk record allowedExts &&
  !(decide (0 < q.MinSize) && decide (record.Size < q.MinSize)) &&
  !(decide (0 < q.MaxSize) && decide (q.MaxSize < record.Size)) &&
  !(!(decide (q.ModifiedAfter = 0)) && decide (record.ModTime < q.ModifiedAfter)) &&
  !(!(decide (q.ModifiedBefore = 0)) && decide (q.ModifiedBefore < record.ModTime))

/-! ## Query engine: sorting -/

/-- Three-way comparison induced by a linear order (`-1`, `0`, `1`), the
shape of `strings.Compare` and of the manual comparisons in `compareRecords`. -/
def cmpk {α : Type} [LinearOrder α] (x y : α) : Int :=
  if x < y then -1 else if y < x then 1 else 0

/-- Model of `compareRecords`. -/
def compareRecords (a b : FileRecord) (field : String) : Int :=
  let f := goToLower field
  if f = "size" then cmpk a.Size b.Size
  else if f = "modified" ∨ f = "time" then cmpk a.ModTime b.ModTime
  else if f = "path" then cmpk (goToLower a.Path) (goToLower b.Path)
  else cmpk (goToLower a.Name) (goToLower b.Name)

/-- The `less` closure passed to `sort.Slice` by `Search`. -/
def searchLess (q : Query) (a b : FileRecord) : Bool :=
  let cmp := compareRecords a b q.SortField
  if cmp = 0 then
    let cmp2 := cmpk (goToLower a.Name) (goToLower b.Name)
    if cmp2 = 0 then
      if a.Path = b.Path then false
      else decide (a.Path < b.Path)
    else if q.SortDescending then decide (0 < cmp2) else decide (cmp2 < 0)
  else if q.SortDescending then decide (0 < cmp) else decide (cmp < 0)

/-- The non-strict order induced by the `less` closure (`a` need not come
after `b`). `sort.Slice` produces a permutation that is sorted for this
relation. -/
def leRec (q : Query) (a b : FileRecord) : Prop := ¬ searchLess q b a = true

instance (q : Query) : DecidableRel (leRec q) := fun _ _ => instDecidableNot

/-- Model of `sort.Slice(matches, less)`: a permutation of the input sorted
with respect to `leRec q` (which `sort.Slice` guarantees for a strict weak
order; the theorems below show the sorted arrangement is unique for records
with pairwise distinct paths, so the choice of sorting algorithm is
immaterial there). -/
def sortMatches (q : Query) (l : List FileRecord) : List FileRecord :=
  List.insertionSort (leRec q) l

/-! ## Query engine: `Search` -/

/-- The filtering loop of `Search`: build the name matcher and the extension
allow-set, then keep the records satisfying `matchesQuery` (the context is
never cancelled, so the opportunistic `ctx.Err()` check never fires). -/
def searchMatches (files : List (String × FileRecord)) (q : Query) : List FileRecord :=
  (files.filter (fun e =>
    matchesQuery e.2 q (buildNameMatcher q.NamePattern) (normalizeExts q.Extensions))).map
    (fun e => e.2)

/-- Wraparound of Go's 64-bit `int` addition: reduce into
`[-9223372036854775808, 9223372036854775807]` (that is, `[-2^63, 2^63-1]`)
modulo `2^64`. -/
def int64Wrap (x : Int) : Int :=
  (x + 9223372036854775808) % 18446744073709551616 - 9223372036854775808

/-- The largest Go `int` value, `2^63 - 1`. -/
def maxInt64 : Int := 9223372036854775807

/-- Model of `Indexer.Search`. `files` is the association list modelling the
in-memory map.  Go's `int` is 64-bit: the sums `offset+limit` in the limit
clamp and in the slice expression wrap on overflow (`int64Wrap`), and a
slice expression `matches[offset : offset+limit]` whose bounds violate
`0 ≤ low ≤ high ≤ len` panics — modelled by `none`. -/
def Search (files : List (String × FileRecord)) (q : Query) : Option SearchResult :=
  let matched := searchMatches files q
  let sorted := sortMatches q matched
  let total : Int := sorted.length
  let offset := if q.Offset < 0 then 0 else if total < q.Offset then total else q.Offset
  let limit :=
    if q.Limit ≤ 0 ∨ total < int64Wrap (offset + q.Limit) then total - offset else q.Limit
  if offset ≠ 0 ∨ limit ≠ total then
    let hi := int64Wrap (offset + limit)
    if 0 ≤ offset ∧ offset ≤ hi ∧ hi ≤ total then
      some { Files := (sorted.drop offset.toNat).take (hi - offset).toNat, Total := total }
    else none
  else some { Files := sorted, Total := total }

/-! ## Indexer state and single-record mutation -/

/-- The indexer's mutable state: the in-memory map, the status value and the
log of calls issued to the Record Store.  `cancelSet` models whether
`idx.scanCancel` is non-nil. -/
structure IndexerSt where
  files : List (String × FileRecord)
  status : ScanStatus
  storeOps : List StoreOp
  cancelSet : Bool
deriving DecidableEq, Repr

/-- Oracles describing the outside world during a scan: the filesystem (the
regular files a `WalkDir` of each root yields, directories and unreadable
entries already skipped by the walker), `os.Stat` answers, which store
calls fail, the per-root scan states read at the start of the scan (`none`
models a read error, which the scan skips), and the `time.Now` readings. -/
structure WalkFile where
  path : String
  name : String
  size : Int
  modTime : Int
deriving DecidableEq, Repr

/-- Model of `os.Stat` outcome, as distinguished by `removeMissing`. -/
inductive StatRes
  | ok
  | notExist
  | otherErr
deriving DecidableEq, Repr

structure ScanEnv where
  fsFiles : String → List WalkFile
  stat : String → StatRes
  upsertFails : String → Bool
  deleteFails : String → Bool
  scanStateRead : String → Option ScanState
  rootFinishTime : String → Int
  finishTime : Int

/-- Model of `Indexer.Lookup` (returns the record found for the normalized path). -/
def lookupIdx (files : List (String × FileRecord)) (path : String) : Option FileRecord :=
  mapGet files (clean path)

/-- Model of `Indexer.Lookup` on the indexer state. -/
def Lookup (st : IndexerSt) (path : String) : Option FileRecord :=
  lookupIdx st.files path

/-- Model of `Indexer.countFiles`. -/
def countFiles (st : IndexerSt) : Nat := st.files.length

/-- Model of `saveRecord`: normalize the path, upsert into the in-memory map, then
write through to the store (the call is logged; the oracle decides failure). -/
def saveRecord (env : ScanEnv) (st : IndexerSt) (record : FileRecord) :
    IndexerSt × Option IOErr :=
  let normalized := clean record.Path
  let record := { record with Path := normalized }
  let st := { st with
    files := mapPut st.files normalized record
    storeOps := st.storeOps ++ [StoreOp.upsert record] }
  if env.upsertFails normalized then (st, some (IOErr.upsertErr normalized))
  else (st, none)

/-- Model of `deleteRecord`: normalize the path, delete from the in-memory map, then
delete from the store. -/
def deleteRecord (env : ScanEnv) (st : IndexerSt) (path : String) :
    IndexerSt × Option IOErr :=
  let normalized := clean path
  let st := { st with
    files := mapDel st.files normalized
    storeOps := st.storeOps ++ [StoreOp.del normalized] }
  if env.deleteFails normalized then (st, some (IOErr.deleteErr normalized))
  else (st, none)

/-- Model of `Indexer.UpdateFile` (ignores the store error). -/
def UpdateFile (env : ScanEnv) (st : IndexerSt) (record : FileRecord) : IndexerSt :=
  (saveRecord env st record).1

/-- Model of `Indexer.RemoveFile` (ignores the store error). -/
def RemoveFile (env : ScanEnv) (st : IndexerSt) (path : String) : IndexerSt :=
  (deleteRecord env st path).1

/-! ## Scan execution -/

/-- The body of the `WalkDir` callback in `walkRoot` for one regular file:
count it, mark it seen, publish progress, then (unless an incremental scan
finds an unchanged record) write the record through `saveRecord`. -/
def processFile (env : ScanEnv) (root : String) (mode : ScanMode) (st : IndexerSt)
    (seen : List String) (processed : Int) (f : WalkFile) :
    IndexerSt × List String × Int × Option IOErr :=
  let normalized := clean f.path
  let processed := processed + 1
  let seen := normalized :: seen
  let st := { st with status := { st.status with Processed := processed, CurrentPath := normalized } }
  let skip : Bool :=
    mode = ScanMode.incremental &&
      (match lookupIdx st.files normalized with
       | some existing => existing.Size = f.size && existing.ModTime = f.modTime
       | none => false)
  if skip then (st, seen, processed, none)
  else
    let record : FileRecord :=
      { Path := normalized, Name := f.name, Size := f.size, ModTime := f.modTime, RootPath := root }
    let res := saveRecord env st record
    (res.1, seen, processed, res.2)

/-- Model of `filepath.WalkDir` over the regular files of a root: a non-nil error
returned by the callback (a failed store write) aborts the remaining walk
of this root and is returned. -/
def walkFiles (env : ScanEnv) (root : String) (mode : ScanMode) (st : IndexerSt)
    (seen : List String) (processed : Int) :
    List WalkFile → IndexerSt × List String × Int × Option IOErr
  | [] => (st, seen, processed, none)
  | f :: rest =>
    let res := processFile env root mode st seen processed f
    match res.2.2.2 with
    | some e => (res.1, res.2.1, res.2.2.1, some e)
    | none => walkFiles env root mode res.1 res.2.1 res.2.2.1 rest

/-- Model of `walkRoot`. -/
def walkRoot (env : ScanEnv) (root : String) (mode : ScanMode) (st : IndexerSt)
    (seen : List String) (processed : Int) :
    IndexerSt × List String × Int × Option IOErr :=
  walkFiles env root mode st seen processed (env.fsFiles root)

/-- The accumulator of the per-root loop in `runScan`. -/
structure ScanAcc where
  st : IndexerSt
  seen : List String
  processed : Int
  firstErr : Option IOErr
  scanned : List String
deriving DecidableEq, Repr

/-- One iteration of the root loop in `runScan`: walk the root; on error
keep the first error and move on (the root is not marked scanned and its
scan state is not updated); on success mark the root scanned and update its
`ScanState` timestamps in the store. -/
def scanRoot (env : ScanEnv) (mode : ScanMode) (acc : ScanAcc) (root : String) : ScanAcc :=
  let res := walkRoot env root mode acc.st acc.seen acc.processed
  match res.2.2.2 with
  | some e =>
    { st := res.1, seen := res.2.1, processed := res.2.2.1
      firstErr := acc.firstErr <|> some e, scanned := acc.scanned }
  | none =>
    let prev := (env.scanStateRead root).getD ⟨"", 0, 0⟩
    let ts := env.rootFinishTime root
    let state : ScanState :=
      match mode with
      | .full => { RootPath := root, LastFullScan := ts, LastIncrementalScan := ts }
      | .incremental => { prev with RootPath := root, LastIncrementalScan := ts }
    { st := { res.1 with storeOps := res.1.storeOps ++ [StoreOp.putState state] }
      seen := res.2.1, processed := res.2.2.1
      firstErr := acc.firstErr, scanned := acc.scanned ++ [root] }

/-- The root loop of `runScan`. -/
def scanLoop (env : ScanEnv) (mode : ScanMode) (acc : ScanAcc) (roots : List String) : ScanAcc :=
  roots.foldl (scanRoot env mode) acc

/-- The candidate paths collected by `removeMissing`: in-memory records whose
root was scanned in this pass and whose path was not seen. -/
def removeCandidates (files : List (String × FileRecord)) (seen scanned : List String) :
    List String :=
  (files.filter (fun e => scanned.contains e.2.RootPath && !(seen.contains e.1))).map
    (fun e => e.1)

/-- The per-candidate loop of `removeMissing`: a candidate is removed only
when `os.Stat` reports the file as missing; a failed store delete aborts the
loop and is returned. -/
def removeLoop (env : ScanEnv) (st : IndexerSt) : List String → IndexerSt × Option IOErr
  | [] => (st, none)
  | p :: rest =>
    match env.stat p with
    | .ok => removeLoop env st rest
    | .otherErr => removeLoop env st rest
    | .notExist =>
      let res := deleteRecord env st p
      match res.2 with
      | some e => (res.1, some e)
      | none => removeLoop env res.1 rest

/-- Model of `removeMissing`. -/
def removeMissing (env : ScanEnv) (st : IndexerSt) (seen scanned : List String) :
    IndexerSt × Option IOErr :=
  removeLoop env st (removeCandidates st.files seen scanned)

/-- Model of `runScan` (without cancellation): walk every root, reconcile deletions
when at least one root was fully scanned, then finalize the status. -/
def runScan (env : ScanEnv) (mode : ScanMode) (st : IndexerSt) (roots : List String) :
    IndexerSt :=
  let acc := scanLoop env mode ⟨st, [], 0, none, []⟩ roots
  let rm :=
    if acc.scanned ≠ [] then removeMissing env acc.st acc.seen acc.scanned
    else (acc.st, none)
  let firstErr := acc.firstErr <|> rm.2
  let st2 := rm.1
  { st2 with
    cancelSet := false
    status := { st2.status with
      Running := false
      FinishedAt := env.finishTime
      Processed := acc.processed
      CurrentPath := ""
      Error := firstErr
      LastSuccessfulRun :=
        if firstErr = none then env.finishTime else st2.status.LastSuccessfulRun } }

/-- The only error value `StartScan` can return. -/
inductive StartErr
  | scanInProgress
deriving DecidableEq, Repr

/-- Model of `Indexer.StartScan` up to the point where the background goroutine is
launched.  Returns the new state, the error, and whether a scan was
launched (`go idx.runScan(...)` scheduled). -/
def StartScan (st : IndexerSt) (mode : ScanMode) (now : Int) :
    IndexerSt × Option StartErr × Bool :=
  if st.status.Running then (st, some StartErr.scanInProgress, false)
  else
    ({ st with
        status :=
          { Mode := mode.str
            Running := true
            CurrentPath := ""
            Processed := 0
            KnownFiles := countFiles st
            StartedAt := now
            FinishedAt := 0
            LastSuccessfulRun := 0
            Error := none }
        cancelSet := true },
      none, true)

/-! ## Persistence synchronization -/

/-- The replacement map built by `LoadFromStore` from the records read from
the store (later records overwrite earlier ones with the same normalized
path, as map assignment does). -/
def loadMap (records : List StoreRecord) : List (String × FileRecord) :=
  records.foldl
    (fun data record =>
      let normalized := clean record.Path
      mapPut data normalized
        { Path := normalized, Name := record.Name, Size := record.Size
          ModTime := record.ModTime, RootPath := record.RootPath })
    []

/-- One iteration of the `lastRun` loop in `LoadFromStore`: keep the later
of the current value and the root's full/incremental timestamps; a root
whose scan state cannot be read is skipped. -/
def lastRunStep (env : ScanEnv) (lastRun : Int) (root : String) : Int :=
  match env.scanStateRead root with
  | none => lastRun
  | some state =>
    let lastRun2 := if lastRun < state.LastFullScan then state.LastFullScan else lastRun
    if lastRun2 < state.LastIncrementalScan then state.LastIncrementalScan else lastRun2

/-- The `lastRun` computation of `LoadFromStore`: the most recent of the
per-root full/incremental timestamps, starting from the zero time. -/
def loadLastRun (env : ScanEnv) (roots : List String) : Int :=
  roots.foldl (lastRunStep env) 0

/-- Model of `Indexer.LoadFromStore` on a successful `LoadAll` returning `records`. -/
def LoadFromStore (env : ScanEnv) (records : List StoreRecord) (roots : List String)
    (st : IndexerSt) : IndexerSt × Nat :=
  let data := loadMap records
  let lastRun := loadLastRun env roots
  ({ st with
      files := data
      status := { st.status with
        LastSuccessfulRun := lastRun
        Mode := ScanMode.incremental.str
        Processed := 0
        Error := none } },
    records.length)

/-- The invariant maintained by every mutation of the in-memory map: each
key is a `Clean`-normalized path and the stored record's `Path` field equals
its key. -/
def NormalizedKeys (m : List (String × FileRecord)) : Prop :=
  ∀ e ∈ m, clean e.1 = e.1 ∧ e.2.Path = e.1

/-- Keys of the association list are pairwise distinct (always true of a Go
map). -/
def KeysNodup (m : List (String × FileRecord)) : Prop :=
  (m.map Prod.fst).Nodup

/-! ## Proof-support definitions -/

/-- A path element that `cleanStack` never drops as trivial: non-empty and
not `"."`. -/
def GoodPart (p : List Char) : Prop := p ≠ [] ∧ p ≠ ['.']

/-- Shape of the `cleanStack` accumulator for a relative path: any `".."`
elements sit at the bottom of the stack (the end of the list). -/
def SGood (acc : List (List Char)) : Prop :=
  ∃ front dds, acc = front ++ dds ∧ dd ∉ front ∧ ∀ p ∈ dds, p = dd

/-- Shape of a cleaned relative path's element list: a run of `".."`
elements followed by `".."`-free elements. -/
def OGood (out : List (List Char)) : Prop :=
  ∃ n rest, out = List.replicate n dd ++ rest ∧ dd ∉ rest

/-- Declarative semantics of the anchored wildcard pattern: a literal
matches itself, `?` matches exactly one character other than a newline, and
`*` matches any run of characters not containing a newline. -/
inductive WildSem : List WildTok → List Char → Prop
  | nil : WildSem [] []
  | lit {c ps xs} : WildSem ps xs → WildSem (.lit c :: ps) (c :: xs)
  | one {c ps xs} : c ≠ '\n' → WildSem ps xs → WildSem (.one :: ps) (c :: xs)
  | star {run ps xs} : (∀ c ∈ run, c ≠ '\n') → WildSem ps xs →
      WildSem (.star :: ps) (run ++ xs)

/-! # Theorems

## Lemmas on splitting and joining path elements -/

theorem splitSlash_ne_nil (l : List Char) : splitSlash l ≠ [] := by
  cases l with
  | nil => simp [splitSlash]
  | cons c rest =>
    unfold splitSlash
    by_cases h : c = '/'
    · simp [h]
    · simp only [if_neg h]
      cases hs : splitSlash rest <;> simp

theorem splitSlash_no_slash (l : List Char) : ∀ p ∈ splitSlash l, '/' ∉ p := by
  induction l with
  | nil =>
    intro p hp
    simp [splitSlash] at hp
    simp [hp]
  | cons c rest ih =>
    intro p hp
    unfold splitSlash at hp
    by_cases h : c = '/'
    · simp only [if_pos h, List.mem_cons] at hp
      rcases hp with hp | hp
      · simp [hp]
      · exact ih p hp
    · simp only [if_neg h] at hp
      cases hs : splitSlash rest with
      | nil => exact absurd hs (splitSlash_ne_nil rest)
      | cons g gs =>
        rw [hs] at hp
        rcases List.mem_cons.mp hp with hp | hp
        · subst hp
          intro hmem
          rcases List.mem_cons.mp hmem with h1 | h1
          · exact h h1.symm
          · exact ih g (hs ▸ List.mem_cons_self g gs) h1
        · exact ih p (hs ▸ List.mem_cons.mpr (Or.inr hp))

theorem splitSlash_of_no_slash (p : List Char) (h : '/' ∉ p) : splitSlash p = [p] := by
  induction p with
  | nil => rfl
  | cons c rest ih =>
    have hc : ¬ c = '/' := fun hc => h (hc ▸ List.mem_cons_self c rest)
    have hr : '/' ∉ rest := fun hm => h (List.mem_cons.mpr (Or.inr hm))
    unfold splitSlash
    rw [if_neg hc, ih hr]

theorem splitSlash_append_slash (p t : List Char) (h : '/' ∉ p) :
    splitSlash (p ++ '/' :: t) = p :: splitSlash t := by
  induction p with
  | nil => simp [splitSlash]
  | cons c rest ih =>
    have hc : ¬ c = '/' := fun hc => h (hc ▸ List.mem_cons_self c rest)
    have hr : '/' ∉ rest := fun hm => h (List.mem_cons.mpr (Or.inr hm))
    rw [List.cons_append]
    conv_lhs => unfold splitSlash
    rw [if_neg hc, ih hr]

theorem splitSlash_join (out : List (List Char)) (hne : out ≠ [])
    (h : ∀ p ∈ out, '/' ∉ p) : splitSlash (joinSlash out) = out := by
  induction out with
  | nil => cases hne rfl
  | cons p rest ih =>
    cases rest with
    | nil =>
      have := splitSlash_of_no_slash p (h p (List.mem_cons_self p []))
      simpa [joinSlash] using this
    | cons q rest2 =>
      rw [show joinSlash (p :: q :: rest2) = p ++ '/' :: joinSlash (q :: rest2) from rfl]
      rw [splitSlash_append_slash _ _ (h p (List.mem_cons_self p _))]
      rw [ih (by simp) (fun x hx => h x (List.mem_cons.mpr (Or.inr hx)))]

theorem joinSlash_ne_nil (p : List Char) (rest : List (List Char)) (hp : p ≠ []) :
    joinSlash (p :: rest) ≠ [] := by
  cases rest with
  | nil => simpa [joinSlash] using hp
  | cons q rest2 =>
    rw [show joinSlash (p :: q :: rest2) = p ++ '/' :: joinSlash (q :: rest2) from rfl]
    simp

theorem joinSlash_head (p : List Char) (rest : List (List Char)) (hp : p ≠ []) :
    (joinSlash (p :: rest)).head? = p.head? := by
  cases rest with
  | nil => rfl
  | cons q rest2 =>
    rw [show joinSlash (p :: q :: rest2) = p ++ '/' :: joinSlash (q :: rest2) from rfl]
    cases p with
    | nil => cases hp rfl
    | cons c cs => rfl

/-! ## Shape lemmas for the element stack of the Clean model -/

theorem SGood_nil : SGood [] := ⟨[], [], rfl, by simp, by simp⟩

theorem SGood_cons_of_ne {p : List Char} {l : List (List Char)} (h : p ≠ dd)
    (hs : SGood l) : SGood (p :: l) := by
  obtain ⟨front, dds, rfl, hf, hd⟩ := hs
  refine ⟨p :: front, dds, rfl, ?_, hd⟩
  intro hm
  rcases List.mem_cons.mp hm with h1 | h1
  · exact h h1.symm
  · exact hf h1

theorem SGood_all_dd {l : List (List Char)} (hs : SGood (dd :: l)) :
    ∀ p ∈ dd :: l, p = dd := by
  obtain ⟨front, dds, heq, hf, hd⟩ := hs
  cases front with
  | nil =>
    intro p hp
    apply hd
    have hdds : dds = dd :: l := by simpa using heq.symm
    rw [hdds]
    exact hp
  | cons f front2 =>
    have hf2 : f = dd := by
      have := congrArg List.head? heq
      simpa using this.symm
    exact absurd (hf2 ▸ List.mem_cons_self f front2) hf

theorem SGood_tail {p : List Char} {l : List (List Char)} (hs : SGood (p :: l))
    (h : p ≠ dd) : SGood l := by
  obtain ⟨front, dds, heq, hf, hd⟩ := hs
  cases front with
  | nil =>
    exfalso
    have hp : p ∈ dds := by
      simp only [List.nil_append] at heq
      exact heq ▸ List.mem_cons_self p l
    exact h (hd p hp)
  | cons f front2 =>
    simp only [List.cons_append, List.cons.injEq] at heq
    exact ⟨front2, dds, heq.2, fun hm => hf (List.mem_cons.mpr (Or.inr hm)), hd⟩

theorem SGood_reverse_ogood {acc : List (List Char)} (hs : SGood acc) :
    OGood acc.reverse := by
  obtain ⟨front, dds, rfl, hf, hd⟩ := hs
  refine ⟨dds.length, front.reverse, ?_, by simpa using hf⟩
  rw [List.reverse_append]
  congr 1
  rw [← List.length_reverse]
  exact List.eq_replicate_of_mem (fun p hp => hd p (List.mem_reverse.mp hp))

/-! ## Equation lemmas for `cleanStack` -/

theorem cleanStack_eq_nil (rooted : Bool) (acc : List (List Char)) :
    cleanStack rooted acc [] = acc.reverse := rfl

theorem cleanStack_eq_triv (rooted : Bool) (acc : List (List Char)) (part : List Char)
    (rest : List (List Char)) (h : part = [] ∨ part = ['.']) :
    cleanStack rooted acc (part :: rest) = cleanStack rooted acc rest := by
  conv_lhs => unfold cleanStack
  rw [if_pos h]

theorem cleanStack_eq_dd_nilacc (rooted : Bool) (rest : List (List Char)) :
    cleanStack rooted [] (dd :: rest) =
      if rooted then cleanStack rooted [] rest else cleanStack rooted [dd] rest := by
  conv_lhs => unfold cleanStack
  rw [if_neg (by simp [dd]), if_pos rfl]

theorem cleanStack_eq_dd_consacc (rooted : Bool) (top : List Char)
    (acc2 rest : List (List Char)) :
    cleanStack rooted (top :: acc2) (dd :: rest) =
      if top = dd then cleanStack rooted (dd :: top :: acc2) rest
      else cleanStack rooted acc2 rest := by
  conv_lhs => unfold cleanStack
  rw [if_neg (by simp [dd]), if_pos rfl]

theorem cleanStack_eq_push (rooted : Bool) (acc : List (List Char)) (part : List Char)
    (rest : List (List Char)) (h1 : ¬ (part = [] ∨ part = ['.'])) (h2 : ¬ part = dd) :
    cleanStack rooted acc (part :: rest) = cleanStack rooted (part :: acc) rest := by
  conv_lhs => unfold cleanStack
  rw [if_neg h1, if_neg h2]

/-! ## Fixpoint lemmas for `cleanStack` -/

theorem cleanStack_push_all (rooted : Bool) (parts : List (List Char))
    (h : ∀ p ∈ parts, GoodPart p ∧ p ≠ dd) :
    ∀ acc, cleanStack rooted acc parts = acc.reverse ++ parts := by
  induction parts with
  | nil => intro acc; simp [cleanStack_eq_nil]
  | cons part rest ih =>
    intro acc
    obtain ⟨⟨hne, hdot⟩, hdd⟩ := h part (List.mem_cons_self part rest)
    rw [cleanStack_eq_push rooted acc part rest (by simp [hne, hdot]) hdd]
    rw [ih (fun p hp => h p (List.mem_cons.mpr (Or.inr hp))) (part :: acc)]
    simp

theorem cleanStack_dd_run (rest : List (List Char))
    (hrest : ∀ p ∈ rest, GoodPart p ∧ p ≠ dd) :
    ∀ (n : Nat) acc, (∀ p ∈ acc, p = dd) →
      cleanStack false acc (List.replicate n dd ++ rest) =
        acc.reverse ++ List.replicate n dd ++ rest := by
  intro n
  induction n with
  | zero =>
    intro acc hacc
    simpa using cleanStack_push_all false rest hrest acc
  | succ n ih =>
    intro acc hacc
    rw [List.replicate_succ, List.cons_append]
    cases acc with
    | nil =>
      rw [cleanStack_eq_dd_nilacc false (List.replicate n dd ++ rest)]
      rw [if_neg (by simp)]
      rw [ih [dd] (by simp)]
      simp [List.replicate_succ]
    | cons top acc2 =>
      have htop : top = dd := hacc top (List.mem_cons_self top acc2)
      rw [cleanStack_eq_dd_consacc false top acc2 (List.replicate n dd ++ rest)]
      rw [if_pos htop]
      rw [ih (dd :: top :: acc2) (by
        intro p hp
        rcases List.mem_cons.mp hp with h1 | h1
        · exact h1
        · exact hacc p h1)]
      simp [List.replicate_succ, htop]

/-! ## Invariant of `cleanStack`: output shape -/

theorem cleanStack_inv (rooted : Bool) :
    ∀ (parts : List (List Char)) acc,
      (∀ p ∈ acc, GoodPart p ∧ '/' ∉ p) →
      (∀ p ∈ parts, '/' ∉ p) →
      (rooted = true → ∀ p ∈ acc, p ≠ dd) →
      (rooted = false → SGood acc) →
      (∀ p ∈ cleanStack rooted acc parts, GoodPart p ∧ '/' ∉ p) ∧
      (rooted = true → ∀ p ∈ cleanStack rooted acc parts, p ≠ dd) ∧
      (rooted = false → OGood (cleanStack rooted acc parts)) := by
  intro parts
  induction parts with
  | nil =>
    intro acc hacc _ hroot hrel
    rw [cleanStack_eq_nil]
    refine ⟨?_, ?_, ?_⟩
    · intro p hp
      exact hacc p (List.mem_reverse.mp hp)
    · intro hr p hp
      exact hroot hr p (List.mem_reverse.mp hp)
    · intro hr
      exact SGood_reverse_ogood (hrel hr)
  | cons part rest ih =>
    intro acc hacc hparts hroot hrel
    have hrestss : ∀ p ∈ rest, '/' ∉ p :=
      fun p hp => hparts p (List.mem_cons.mpr (Or.inr hp))
    by_cases htriv : part = [] ∨ part = ['.']
    · rw [cleanStack_eq_triv rooted acc part rest htriv]
      exact ih acc hacc hrestss hroot hrel
    · by_cases hdd : part = dd
      · subst hdd
        cases acc with
        | nil =>
          rw [cleanStack_eq_dd_nilacc rooted rest]
          cases rooted with
          | true =>
            rw [if_pos rfl]
            exact ih [] (by simp) hrestss hroot hrel
          | false =>
            rw [if_neg (by simp)]
            refine ih [dd] ?_ hrestss ?_ ?_
            · intro p hp
              rw [List.mem_singleton.mp hp]
              exact ⟨⟨by simp [dd], by simp [dd]⟩, by simp [dd]⟩
            · intro hr; cases hr
            · intro _
              exact ⟨[], [dd], rfl, by simp, by simp⟩
        | cons top acc2 =>
          rw [cleanStack_eq_dd_consacc rooted top acc2 rest]
          by_cases htop : top = dd
          · rw [if_pos htop]
            refine ih (dd :: top :: acc2) ?_ hrestss ?_ ?_
            · intro p hp
              rcases List.mem_cons.mp hp with h1 | h1
              · exact h1 ▸ ⟨⟨by simp [dd], by simp [dd]⟩, by simp [dd]⟩
              · exact hacc p h1
            · intro hr
              exact absurd (hroot hr top (List.mem_cons_self top acc2) htop) id
            · intro hr
              have hall := SGood_all_dd (htop ▸ hrel hr)
              refine ⟨[], dd :: top :: acc2, rfl, by simp, ?_⟩
              intro p hp
              rcases List.mem_cons.mp hp with h1 | h1
              · exact h1
              · exact hall p (htop ▸ h1)
          · rw [if_neg htop]
            refine ih acc2 ?_ hrestss ?_ ?_
            · intro p hp; exact hacc p (List.mem_cons.mpr (Or.inr hp))
            · intro hr p hp; exact hroot hr p (List.mem_cons.mpr (Or.inr hp))
            · intro hr; exact SGood_tail (hrel hr) htop
      · rw [cleanStack_eq_push rooted acc part rest htriv hdd]
        push_neg at htriv
        refine ih (part :: acc) ?_ hrestss ?_ ?_
        · intro p hp
          rcases List.mem_cons.mp hp with h1 | h1
          · exact h1 ▸ ⟨⟨htriv.1, htriv.2⟩, hparts part (List.mem_cons_self part rest)⟩
          · exact hacc p h1
        · intro hr p hp
          rcases List.mem_cons.mp hp with h1 | h1
          · exact h1 ▸ hdd
          · exact hroot hr p h1
        · intro hr
          exact SGood_cons_of_ne hdd (hrel hr)

/-! ## Idempotence of the Clean model -/

theorem cleanList_rooted (l : List Char) (hnil : ¬ l = []) (hroot : l.head? = some '/') :
    cleanList l = '/' :: joinSlash (cleanStack true [] (splitSlash l)) := by
  simp [cleanList, hnil, hroot]

theorem cleanList_unrooted (l : List Char) (hnil : ¬ l = []) (hroot : ¬ l.head? = some '/') :
    cleanList l =
      (if cleanStack false [] (splitSlash l) = [] then ['.']
       else joinSlash (cleanStack false [] (splitSlash l))) := by
  simp [cleanList, hnil, hroot]

theorem cleanList_idem (l : List Char) : cleanList (cleanList l) = cleanList l := by
  by_cases hnil : l = []
  · subst hnil
    decide
  · have hinv := cleanStack_inv (decide (l.head? = some '/')) (splitSlash l) []
      (by simp) (splitSlash_no_slash l) (by simp) (fun _ => SGood_nil)
    by_cases hroot : l.head? = some '/'
    · rw [cleanList_rooted l hnil hroot]
      rw [decide_eq_true hroot] at hinv
      obtain ⟨hgood, hnodd, _⟩ := hinv
      set parts := cleanStack true [] (splitSlash l) with hpartsdef
      cases hp : parts with
      | nil =>
        rw [show ('/' : Char) :: joinSlash [] = ['/'] from rfl]
        decide
      | cons p0 rest =>
        rw [← hp]
        have hne : parts ≠ [] := by rw [hp]; simp
        have hnoslash : ∀ p ∈ parts, '/' ∉ p := fun p hpm => (hgood p hpm).2
        rw [cleanList_rooted ('/' :: joinSlash parts) (by simp) rfl]
        rw [show splitSlash ('/' :: joinSlash parts) = [] :: splitSlash (joinSlash parts) by
          simp [splitSlash]]
        rw [splitSlash_join parts hne hnoslash]
        rw [cleanStack_eq_triv true [] [] parts (Or.inl rfl)]
        rw [cleanStack_push_all true parts
          (fun p hpm => ⟨(hgood p hpm).1, hnodd rfl p hpm⟩) []]
        rfl
    · rw [cleanList_unrooted l hnil hroot]
      rw [decide_eq_false hroot] at hinv
      obtain ⟨hgood, _, hogood⟩ := hinv
      set parts := cleanStack false [] (splitSlash l) with hpartsdef
      by_cases hp : parts = []
      · rw [if_pos hp]
        decide
      · rw [if_neg hp]
        obtain ⟨p0, rest0, hp2⟩ := List.exists_cons_of_ne_nil hp
        have hnoslash : ∀ p ∈ parts, '/' ∉ p := fun p hpm => (hgood p hpm).2
        have hp0 : p0 ∈ parts := by rw [hp2]; exact List.mem_cons_self p0 rest0
        have hp0ne : p0 ≠ [] := (hgood p0 hp0).1.1
        have hjoinne : ¬ joinSlash parts = [] := by
          rw [hp2]; exact joinSlash_ne_nil p0 rest0 hp0ne
        have hjoinhead : ¬ (joinSlash parts).head? = some '/' := by
          rw [hp2, joinSlash_head p0 rest0 hp0ne]
          obtain ⟨c, cs, hc2⟩ := List.exists_cons_of_ne_nil hp0ne
          have hcne : ¬ c = '/' := fun hc => (hgood p0 hp0).2 (hc ▸ hc2 ▸ List.mem_cons_self c cs)
          rw [hc2]
          simpa using hcne
        rw [cleanList_unrooted (joinSlash parts) hjoinne hjoinhead]
        rw [splitSlash_join parts hp hnoslash]
        obtain ⟨n, rest, hshape, hddfree⟩ := hogood rfl
        have hrestgood : ∀ p ∈ rest, GoodPart p ∧ p ≠ dd := by
          intro p hpm
          have : p ∈ parts := by
            rw [hshape]
            exact List.mem_append.mpr (Or.inr hpm)
          exact ⟨(hgood p this).1, fun hpe => hddfree (hpe ▸ hpm)⟩
        rw [hshape, cleanStack_dd_run rest hrestgood n [] (by simp)]
        rw [List.reverse_nil, List.nil_append, ← hshape]
        rw [if_neg hp]

theorem clean_idem (s : String) : clean (clean s) = clean s := by
  show (⟨cleanList (⟨cleanList s.data⟩ : String).data⟩ : String) = ⟨cleanList s.data⟩
  rw [show (⟨cleanList s.data⟩ : String).data = cleanList s.data from rfl]
  rw [cleanList_idem]

/-! ## Lemmas about the map model -/

theorem find?_key_filter (m : List (String × FileRecord)) (k k' : String) (h : ¬ k' = k) :
    List.find? (fun e => e.1 == k') (m.filter (fun e => !(e.1 == k))) =
      List.find? (fun e => e.1 == k') m := by
  induction m with
  | nil => rfl
  | cons e rest ih =>
    rw [List.filter_cons]
    by_cases he : e.1 = k
    · rw [if_neg (by simp [he])]
      rw [List.find?_cons_of_neg _ (by simp [he]; exact fun hh => h hh.symm)]
      exact ih
    · rw [if_pos (by simp [he])]
      by_cases he2 : e.1 = k'
      · rw [List.find?_cons_of_pos _ (by simp [he2]), List.find?_cons_of_pos _ (by simp [he2])]
      · rw [List.find?_cons_of_neg _ (by simp [he2]), List.find?_cons_of_neg _ (by simp [he2])]
        exact ih

theorem mapGet_mapPut (m : List (String × FileRecord)) (k : String) (v : FileRecord)
    (k' : String) : mapGet (mapPut m k v) k' = if k' = k then some v else mapGet m k' := by
  by_cases h : k' = k
  · subst h
    rw [if_pos rfl]
    unfold mapGet mapPut
    rw [List.find?_cons_of_pos _ (by simp)]
    rfl
  · rw [if_neg h]
    unfold mapGet mapPut
    rw [List.find?_cons_of_neg _ (by simp; exact fun hh => h hh.symm)]
    rw [find?_key_filter m k k' h]

theorem mapGet_mapDel (m : List (String × FileRecord)) (k k' : String) :
    mapGet (mapDel m k) k' = if k' = k then none else mapGet m k' := by
  by_cases h : k' = k
  · rw [if_pos h]
    unfold mapGet mapDel
    have hnone : List.find? (fun e => e.1 == k') (m.filter (fun e => !(e.1 == k))) = none := by
      rw [List.find?_eq_none]
      intro x hx
      have hxk := List.of_mem_filter hx
      simp at hxk ⊢
      rw [h]
      exact hxk
    rw [hnone]
    rfl
  · rw [if_neg h]
    unfold mapGet mapDel
    rw [find?_key_filter m k k' h]

theorem NormalizedKeys_mapPut {m : List (String × FileRecord)} {k : String} {v : FileRecord}
    (hm : NormalizedKeys m) (hk : clean k = k) (hv : v.Path = k) :
    NormalizedKeys (mapPut m k v) := by
  intro e he
  rcases List.mem_cons.mp he with h1 | h1
  · rw [h1]
    exact ⟨hk, hv⟩
  · exact hm e (List.mem_of_mem_filter h1)

theorem NormalizedKeys_mapDel {m : List (String × FileRecord)} {k : String}
    (hm : NormalizedKeys m) : NormalizedKeys (mapDel m k) :=
  fun e he => hm e (List.mem_of_mem_filter he)

theorem mapGet_norm {m : List (String × FileRecord)} {k : String} {r : FileRecord}
    (hm : NormalizedKeys m) (h : mapGet m k = some r) : r.Path = k := by
  unfold mapGet at h
  cases hfind : List.find? (fun e => e.1 == k) m with
  | none => rw [hfind] at h; cases h
  | some e =>
    rw [hfind] at h
    have hek : e.1 = k := by simpa using List.find?_some hfind
    have hmem := List.mem_of_find?_eq_some hfind
    have hpe := (hm e hmem).2
    have hr : e.2 = r := by simpa using h
    rw [← hr, hpe, hek]

/-! ## Shape of the state after `saveRecord` and `deleteRecord` -/

theorem saveRecord_fst (env : ScanEnv) (st : IndexerSt) (record : FileRecord) :
    (saveRecord env st record).1 =
      { st with
        files := mapPut st.files (clean record.Path) { record with Path := clean record.Path }
        storeOps := st.storeOps ++ [StoreOp.upsert { record with Path := clean record.Path }] } := by
  unfold saveRecord
  dsimp only
  split <;> rfl

theorem saveRecord_snd (env : ScanEnv) (st : IndexerSt) (record : FileRecord) :
    (saveRecord env st record).2 =
      if env.upsertFails (clean record.Path) then some (IOErr.upsertErr (clean record.Path))
      else none := by
  unfold saveRecord
  dsimp only
  split
  · rfl
  · rfl

theorem deleteRecord_fst (env : ScanEnv) (st : IndexerSt) (path : String) :
    (deleteRecord env st path).1 =
      { st with
        files := mapDel st.files (clean path)
        storeOps := st.storeOps ++ [StoreOp.del (clean path)] } := by
  unfold deleteRecord
  dsimp only
  split <;> rfl

theorem deleteRecord_snd (env : ScanEnv) (st : IndexerSt) (path : String) :
    (deleteRecord env st path).2 =
      if env.deleteFails (clean path) then some (IOErr.deleteErr (clean path)) else none := by
  unfold deleteRecord
  dsimp only
  split
  · rfl
  · rfl

/-! ## The normalized-keys invariant (claim C10) -/

theorem loadMap_aux_norm (records : List StoreRecord) :
    ∀ acc, NormalizedKeys acc →
      NormalizedKeys (records.foldl
        (fun data record =>
          let normalized := clean record.Path
          mapPut data normalized
            { Path := normalized, Name := record.Name, Size := record.Size
              ModTime := record.ModTime, RootPath := record.RootPath }) acc) := by
  induction records with
  | nil => intro acc h; exact h
  | cons r rest ih =>
    intro acc h
    rw [List.foldl_cons]
    exact ih _ (NormalizedKeys_mapPut h (clean_idem r.Path) rfl)

theorem NormalizedKeys_loadMap (records : List StoreRecord) :
    NormalizedKeys (loadMap records) := by
  unfold loadMap
  exact loadMap_aux_norm records [] (fun e he => absurd he (List.not_mem_nil e))

/-- Claim C10: every mutation of the in-memory index — `saveRecord` (scan
writes and `UpdateFile`), `deleteRecord` (`RemoveFile` and deletion
reconciliation) and the wholesale replacement built by `LoadFromStore` —
preserves the invariant that every key of the `files` map is a
`Clean`-normalized path equal to the `Path` field of the record stored under
it; consequently a successful `Lookup p` returns a record whose `Path` is
the normalization of `p`. -/
theorem claim_c10_normalized_keys (env : ScanEnv) (st : IndexerSt) (record : FileRecord)
    (path : String) (records : List StoreRecord) (p : String) (r : FileRecord) :
    (NormalizedKeys st.files → NormalizedKeys ((saveRecord env st record).1).files)
    ∧ (NormalizedKeys st.files → NormalizedKeys ((deleteRecord env st path).1).files)
    ∧ NormalizedKeys (loadMap records)
    ∧ (NormalizedKeys st.files → Lookup st p = some r → r.Path = clean p) := by
  refine ⟨?_, ?_, NormalizedKeys_loadMap records, ?_⟩
  · intro hm
    rw [saveRecord_fst]
    exact NormalizedKeys_mapPut hm (clean_idem record.Path) rfl
  · intro hm
    rw [deleteRecord_fst]
    exact NormalizedKeys_mapDel hm
  · intro hm h
    exact mapGet_norm hm h

/-- Witness for C10 at a concrete input: a one-record state. -/
theorem claim_c10_witness :
    (fun st0 =>
      (NormalizedKeys st0.files →
        NormalizedKeys ((saveRecord
          ⟨fun _ => [], fun _ => StatRes.ok, fun _ => false, fun _ => false,
            fun _ => none, fun _ => 0, 0⟩ st0 ⟨"/r//x.txt", "x.txt", 1, 2, "/r"⟩).1).files))
      ⟨[], ⟨"", false, "", 0, 0, 0, 0, 0, none⟩, [], false⟩ ∧
    (⟨"/r/x.txt", "x.txt", 1, 2, "/r"⟩ : FileRecord).Path = clean "/r//x.txt" := by
  constructor
  · exact (claim_c10_normalized_keys
      ⟨fun _ => [], fun _ => StatRes.ok, fun _ => false, fun _ => false,
        fun _ => none, fun _ => 0, 0⟩
      ⟨[], ⟨"", false, "", 0, 0, 0, 0, 0, none⟩, [], false⟩
      ⟨"/r//x.txt", "x.txt", 1, 2, "/r"⟩ "" [] "" ⟨"", "", 0, 0, ""⟩).1
  · decide

/-! ## Claim C5: single-flight guard of `StartScan` -/

/-- Claim C5: calling `StartScan` while the status is `Running` returns the
`ErrScanInProgress` sentinel and leaves the state (in particular `StartedAt`
and `Mode`) completely unchanged, launching nothing; otherwise it installs a
fresh `Running` status (`Processed` 0, `StartedAt` now, `KnownFiles`
snapshotted from the live map, `CurrentPath` and `Error` cleared) and
reports that the background scan was launched. -/
theorem claim_c5_start_scan (st : IndexerSt) (mode : ScanMode) (now : Int) :
    (st.status.Running = true →
      StartScan st mode now = (st, some StartErr.scanInProgress, false))
    ∧ (st.status.Running = false →
      StartScan st mode now =
        ({ st with
            status :=
              { Mode := mode.str, Running := true, CurrentPath := "", Processed := 0,
                KnownFiles := countFiles st, StartedAt := now, FinishedAt := 0,
                LastSuccessfulRun := 0, Error := none }
            cancelSet := true }, none, true)) := by
  constructor
  · intro h
    unfold StartScan
    rw [if_pos h]
  · intro h
    unfold StartScan
    rw [if_neg (by rw [h]; simp)]

/-- Witness for C5: a running status is left untouched and rejected; an idle
status launches with the documented fresh fields. -/
theorem claim_c5_witness :
    StartScan ⟨[], ⟨"full", true, "/r/x", 3, 0, 5, 0, 7, none⟩, [], true⟩
        ScanMode.incremental 9 =
      (⟨[], ⟨"full", true, "/r/x", 3, 0, 5, 0, 7, none⟩, [], true⟩,
        some StartErr.scanInProgress, false)
    ∧ StartScan ⟨[], ⟨"full", false, "/r/x", 3, 0, 5, 6, 7, none⟩, [], false⟩
        ScanMode.incremental 9 =
      (⟨[], ⟨"incremental", true, "", 0, 0, 9, 0, 0, none⟩, [], true⟩, none, true) :=
  ⟨(claim_c5_start_scan ⟨[], ⟨"full", true, "/r/x", 3, 0, 5, 0, 7, none⟩, [], true⟩
      ScanMode.incremental 9).1 rfl,
   (claim_c5_start_scan ⟨[], ⟨"full", false, "/r/x", 3, 0, 5, 6, 7, none⟩, [], false⟩
      ScanMode.incremental 9).2 rfl⟩

/-! ## Claim C4: incremental skip versus full rewrite -/

theorem processFile_skip (env : ScanEnv) (root : String) (st : IndexerSt)
    (seen : List String) (processed : Int) (f : WalkFile) (ex : FileRecord)
    (hlook : lookupIdx st.files (clean f.path) = some ex)
    (hsize : ex.Size = f.size) (htime : ex.ModTime = f.modTime) :
    processFile env root ScanMode.incremental st seen processed f =
      ({ st with status :=
          { st.status with Processed := processed + 1, CurrentPath := clean f.path } },
        clean f.path :: seen, processed + 1, none) := by
  unfold processFile
  dsimp only
  rw [hlook]
  simp [hsize, htime]

theorem processFile_full (env : ScanEnv) (root : String) (st : IndexerSt)
    (seen : List String) (processed : Int) (f : WalkFile) :
    processFile env root ScanMode.full st seen processed f =
      ((saveRecord env
          { st with status :=
              { st.status with Processed := processed + 1, CurrentPath := clean f.path } }
          ⟨clean f.path, f.name, f.size, f.modTime, root⟩).1,
        clean f.path :: seen, processed + 1,
        (saveRecord env
          { st with status :=
              { st.status with Processed := processed + 1, CurrentPath := clean f.path } }
          ⟨clean f.path, f.name, f.size, f.modTime, root⟩).2) := by
  unfold processFile
  dsimp only
  simp

/-- Claim C4: during an incremental scan, a file whose normalized path has an
index record with identical size and modification time triggers no write at
all — the in-memory map and the store-call log are unchanged; the file is
merely marked seen and counted.  In full mode every encountered file incurs
both the in-memory upsert and the store upsert, regardless of the existing
record. -/
theorem claim_c4_incremental_skip (env : ScanEnv) (root : String) (st : IndexerSt)
    (seen : List String) (processed : Int) (f : WalkFile) (ex : FileRecord) :
    (lookupIdx st.files (clean f.path) = some ex → ex.Size = f.size → ex.ModTime = f.modTime →
      (processFile env root ScanMode.incremental st seen processed f).1.files = st.files
      ∧ (processFile env root ScanMode.incremental st seen processed f).1.storeOps = st.storeOps
      ∧ (processFile env root ScanMode.incremental st seen processed f).2.1 =
          clean f.path :: seen
      ∧ (processFile env root ScanMode.incremental st seen processed f).2.2.1 = processed + 1
      ∧ (processFile env root ScanMode.incremental st seen processed f).2.2.2 = none)
    ∧ ((processFile env root ScanMode.full st seen processed f).1.files =
        mapPut st.files (clean f.path) ⟨clean f.path, f.name, f.size, f.modTime, root⟩
      ∧ (processFile env root ScanMode.full st seen processed f).1.storeOps =
        st.storeOps ++ [StoreOp.upsert ⟨clean f.path, f.name, f.size, f.modTime, root⟩]) := by
  constructor
  · intro hlook hsize htime
    rw [processFile_skip env root st seen processed f ex hlook hsize htime]
    exact ⟨rfl, rfl, rfl, rfl, rfl⟩
  · rw [processFile_full env root st seen processed f]
    constructor
    · rw [saveRecord_fst]
      simp [clean_idem]
    · rw [saveRecord_fst]
      simp [clean_idem]

/-- Witness for C4: a concrete unchanged file is skipped by an incremental
scan. -/
theorem claim_c4_witness :
    (processFile ⟨fun _ => [], fun _ => StatRes.ok, fun _ => false, fun _ => false,
        fun _ => none, fun _ => 0, 0⟩ "/r"
      ScanMode.incremental
      ⟨[("/r/x.txt", ⟨"/r/x.txt", "x.txt", 1, 2, "/r"⟩)],
        ⟨"", false, "", 0, 0, 0, 0, 0, none⟩, [], false⟩
      [] 0 ⟨"/r/x.txt", "x.txt", 1, 2⟩).1.files =
      [("/r/x.txt", ⟨"/r/x.txt", "x.txt", 1, 2, "/r"⟩)]
    ∧ (processFile ⟨fun _ => [], fun _ => StatRes.ok, fun _ => false, fun _ => false,
        fun _ => none, fun _ => 0, 0⟩ "/r"
      ScanMode.incremental
      ⟨[("/r/x.txt", ⟨"/r/x.txt", "x.txt", 1, 2, "/r"⟩)],
        ⟨"", false, "", 0, 0, 0, 0, 0, none⟩, [], false⟩
      [] 0 ⟨"/r/x.txt", "x.txt", 1, 2⟩).1.storeOps = [] :=
  ⟨((claim_c4_incremental_skip _ "/r"
      ⟨[("/r/x.txt", ⟨"/r/x.txt", "x.txt", 1, 2, "/r"⟩)],
        ⟨"", false, "", 0, 0, 0, 0, 0, none⟩, [], false⟩
      [] 0 ⟨"/r/x.txt", "x.txt", 1, 2⟩ ⟨"/r/x.txt", "x.txt", 1, 2, "/r"⟩).1
      (by decide) rfl rfl).1,
   ((claim_c4_incremental_skip _ "/r"
      ⟨[("/r/x.txt", ⟨"/r/x.txt", "x.txt", 1, 2, "/r"⟩)],
        ⟨"", false, "", 0, 0, 0, 0, 0, none⟩, [], false⟩
      [] 0 ⟨"/r/x.txt", "x.txt", 1, 2⟩ ⟨"/r/x.txt", "x.txt", 1, 2, "/r"⟩).1
      (by decide) rfl rfl).2.1⟩

/-! ## Claim C1: totals and page length of `Search` -/

/-- Counterexample to C1 as stated: with one matching record, `Offset` 1
and `Limit` 9223372036854775807 (the largest Go `int`), the sum
`offset+limit` wraps to a negative value, so the limit is not reduced and
the slice expression `matches[offset : offset+limit]` fails its bounds
check — the program panics instead of returning a page of length
`min(limit, Total - offset)`; the model returns `none`, not a
`SearchResult`. -/
theorem claim_c1_counterexample :
    Search [("/r/x.txt", ⟨"/r/x.txt", "x.txt", 1, 2, "/r"⟩)]
      ⟨"", 0, 0, 0, 0, "", false, 1, 9223372036854775807, []⟩ = none := by
  decide

/-- Claim C1, amended: provided the pagination arithmetic does not overflow
a 64-bit `int` — the clamped offset plus the requested limit stays at most
`maxInt64` (automatic whenever the limit is non-positive) — `Search`
returns a `SearchResult` whose `Total` is the number of records matching
the filters before pagination and whose page length is
`min(limit, Total - offset)` after clamping: a negative offset becomes 0,
an offset above `Total` becomes `Total`, a non-positive limit or one
exceeding the remaining records becomes exactly `Total - offset`, and the
page never exceeds `Total`.  When instead the clamped offset is at least 1
and `offset + Limit` exceeds `maxInt64` (a positive `Limit` within the
`int` range), the sum wraps negative, the limit is not reduced, and the
slice bounds check fails: `Search` panics (`none`) rather than returning a
page. -/
theorem claim_c1_amended (files : List (String × FileRecord)) (q : Query)
    (hlen : ((searchMatches files q).length : Int) ≤ maxInt64) :
    (min (max q.Offset 0) ((searchMatches files q).length : Int) + q.Limit ≤ maxInt64 →
      ∃ res, Search files q = some res
        ∧ res.Total = ((searchMatches files q).length : Int)
        ∧ (res.Files.length : Int) =
            (if q.Limit ≤ 0
             then ((searchMatches files q).length : Int) -
                min (max q.Offset 0) ((searchMatches files q).length : Int)
             else min q.Limit (((searchMatches files q).length : Int) -
                min (max q.Offset 0) ((searchMatches files q).length : Int)))
        ∧ (res.Files.length : Int) ≤ res.Total)
    ∧ (0 < q.Limit → q.Limit ≤ maxInt64 →
        1 ≤ min (max q.Offset 0) ((searchMatches files q).length : Int) →
        maxInt64 < min (max q.Offset 0) ((searchMatches files q).length : Int) + q.Limit →
        Search files q = none) := by
  have hlen2 : (sortMatches q (searchMatches files q)).length = (searchMatches files q).length :=
    List.length_insertionSort _ _
  unfold Search
  dsimp only
  set s := sortMatches q (searchMatches files q) with hs
  set N := (searchMatches files q).length with hN
  simp only [maxInt64] at hlen ⊢
  constructor
  · intro hno
    simp only [int64Wrap]
    split_ifs <;>
      first
        | (exfalso; omega)
        | (refine ⟨_, rfl, ?_, ?_, ?_⟩ <;>
            simp only [List.length_take, List.length_drop, hlen2] <;>
            omega)
  · intro h1 h2 h3 h4
    simp only [int64Wrap]
    split_ifs <;> first | rfl | (exfalso; omega)

/-- Witness for the amended C1: a small in-range query returns a result,
and the concrete overflowing query panics. -/
theorem claim_c1_amended_witness :
    (Search [("/r/a.txt", ⟨"/r/a.txt", "a.txt", 1, 2, "/r"⟩)]
        ⟨"", 0, 0, 0, 0, "", false, 0, 1, []⟩).isSome = true
    ∧ Search [("/r/a.txt", ⟨"/r/a.txt", "a.txt", 1, 2, "/r"⟩)]
        ⟨"", 0, 0, 0, 0, "", false, 5, 9223372036854775807, []⟩ = none := by
  constructor
  · obtain ⟨res, hres, _⟩ := (claim_c1_amended
      [("/r/a.txt", ⟨"/r/a.txt", "a.txt", 1, 2, "/r"⟩)]
      ⟨"", 0, 0, 0, 0, "", false, 0, 1, []⟩ (by decide)).1 (by decide)
    rw [hres]
    rfl
  · exact (claim_c1_amended
      [("/r/a.txt", ⟨"/r/a.txt", "a.txt", 1, 2, "/r"⟩)]
      ⟨"", 0, 0, 0, 0, "", false, 5, 9223372036854775807, []⟩ (by decide)).2
      (by decide) (by decide) (by decide) (by decide)

/-! ## Claim C9: a non-empty extension filter excludes extension-less names -/

/-- Claim C9: whenever the normalized extension allow-list is non-empty, a
record whose name has no extension at all (`filepath.Ext` empty) fails
`matchesQuery` and therefore can never appear in the result page of any
`Search` that returns one. -/
theorem claim_c9_ext_excludes (files : List (String × FileRecord)) (q : Query)
    (r : FileRecord) :
    normalizeExts q.Extensions ≠ [] → fileExt r.Name = "" →
    matchesQuery r q (buildNameMatcher q.NamePattern) (normalizeExts q.Extensions) = false
    ∧ ∀ res, Search files q = some res → r ∉ res.Files := by
  intro hne hext
  have hempty : ¬ ((normalizeExts q.Extensions).isEmpty = true) := by
    intro h
    exact hne (List.isEmpty_iff.mp h)
  have hok : extOk r (normalizeExts q.Extensions) = false := by
    unfold extOk
    rw [if_neg hempty]
    dsimp only
    rw [hext]
    rw [if_pos (by rfl)]
  have hmatch : matchesQuery r q (buildNameMatcher q.NamePattern)
      (normalizeExts q.Extensions) = false := by
    unfold matchesQuery
    rw [hok]
    simp
  refine ⟨hmatch, ?_⟩
  intro res hres hmem
  have h1 : r ∈ sortMatches q (searchMatches files q) := by
    unfold Search at hres
    dsimp only at hres
    set s := sortMatches q (searchMatches files q) with hs
    set off : Int := if q.Offset < 0 then 0 else if (s.length : Int) < q.Offset
        then (s.length : Int) else q.Offset with hoff
    set lim : Int := if q.Limit ≤ 0 ∨ (s.length : Int) < int64Wrap (off + q.Limit)
        then (s.length : Int) - off else q.Limit with hlim
    by_cases hc1 : off ≠ 0 ∨ lim ≠ (s.length : Int)
    · rw [if_pos hc1] at hres
      by_cases hc2 : 0 ≤ off ∧ off ≤ int64Wrap (off + lim) ∧
          int64Wrap (off + lim) ≤ (s.length : Int)
      · rw [if_pos hc2] at hres
        injection hres with hres2
        rw [← hres2] at hmem
        exact List.drop_subset _ _ (List.take_subset _ _ hmem)
      · rw [if_neg hc2] at hres
        cases hres
    · rw [if_neg hc1] at hres
      injection hres with hres2
      rw [← hres2] at hmem
      exact hmem
  have h2 : r ∈ searchMatches files q :=
    (List.perm_insertionSort (leRec q) (searchMatches files q)).subset h1
  unfold searchMatches at h2
  obtain ⟨e, he, hr⟩ := List.mem_map.mp h2
  have hf := (List.mem_filter.mp he).2
  rw [hr] at hf
  rw [hmatch] at hf
  cases hf

/-- Witness for C9: a query filtering on `txt` never returns a record named
`README` (the concrete search returns the empty page). -/
theorem claim_c9_witness :
    matchesQuery ⟨"/r/README", "README", 5, 5, "/r"⟩
        ⟨"", 0, 0, 0, 0, "", false, 0, 0, ["txt"]⟩
        (buildNameMatcher "") (normalizeExts ["txt"]) = false
    ∧ ⟨"/r/README", "README", 5, 5, "/r"⟩ ∉
      (⟨[], 0⟩ : SearchResult).Files :=
  ⟨(claim_c9_ext_excludes [("/r/README", ⟨"/r/README", "README", 5, 5, "/r"⟩)]
      ⟨"", 0, 0, 0, 0, "", false, 0, 0, ["txt"]⟩ ⟨"/r/README", "README", 5, 5, "/r"⟩
      (by decide) (by decide)).1,
   (claim_c9_ext_excludes [("/r/README", ⟨"/r/README", "README", 5, 5, "/r"⟩)]
      ⟨"", 0, 0, 0, 0, "", false, 0, 0, ["txt"]⟩ ⟨"/r/README", "README", 5, 5, "/r"⟩
      (by decide) (by decide)).2 ⟨[], 0⟩ (by decide)⟩

/-! ## Claim C7: `LoadFromStore` -/

theorem mapGet_loadMap (records : List StoreRecord) (p : String) :
    mapGet (loadMap records) p =
      (records.reverse.find? (fun r => clean r.Path == p)).map
        (fun r => ⟨clean r.Path, r.Name, r.Size, r.ModTime, r.RootPath⟩) := by
  induction records using List.reverseRecOn with
  | nil => rfl
  | append_singleton rs r ih =>
    unfold loadMap
    rw [List.foldl_append, List.foldl_cons, List.foldl_nil]
    dsimp only
    rw [show (rs ++ [r]).reverse = r :: rs.reverse by simp]
    rw [mapGet_mapPut]
    by_cases h : p = clean r.Path
    · rw [if_pos h]
      rw [List.find?_cons_of_pos _ (by simp [h])]
      rfl
    · rw [if_neg h]
      rw [List.find?_cons_of_neg _ (by simp; exact fun hh => h hh.symm)]
      exact ih

theorem lastRunStep_ge (env : ScanEnv) (a : Int) (root : String) :
    a ≤ lastRunStep env a root := by
  unfold lastRunStep
  cases env.scanStateRead root with
  | none => exact le_refl a
  | some s =>
    dsimp only
    split_ifs <;> omega

theorem lastRunStep_ge_times (env : ScanEnv) (a : Int) (root : String) (s : ScanState)
    (h : env.scanStateRead root = some s) :
    s.LastFullScan ≤ lastRunStep env a root ∧ s.LastIncrementalScan ≤ lastRunStep env a root := by
  unfold lastRunStep
  rw [h]
  dsimp only
  constructor <;> (split_ifs <;> omega)

theorem lastRunStep_cases (env : ScanEnv) (a : Int) (root : String) :
    lastRunStep env a root = a ∨
      ∃ s, env.scanStateRead root = some s ∧
        (lastRunStep env a root = s.LastFullScan ∨
          lastRunStep env a root = s.LastIncrementalScan) := by
  unfold lastRunStep
  cases hr : env.scanStateRead root with
  | none => exact Or.inl rfl
  | some s =>
    dsimp only
    split_ifs
    · exact Or.inr ⟨s, rfl, Or.inr rfl⟩
    · exact Or.inr ⟨s, rfl, Or.inl rfl⟩
    · exact Or.inr ⟨s, rfl, Or.inr rfl⟩
    · exact Or.inl rfl

theorem foldl_lastRun_ge (env : ScanEnv) (roots : List String) :
    ∀ a, a ≤ roots.foldl (lastRunStep env) a := by
  induction roots with
  | nil => intro a; exact le_refl a
  | cons r rest ih =>
    intro a
    rw [List.foldl_cons]
    exact le_trans (lastRunStep_ge env a r) (ih (lastRunStep env a r))

theorem foldl_lastRun_ge_times (env : ScanEnv) (roots : List String) :
    ∀ a root, root ∈ roots → ∀ s, env.scanStateRead root = some s →
      s.LastFullScan ≤ roots.foldl (lastRunStep env) a ∧
        s.LastIncrementalScan ≤ roots.foldl (lastRunStep env) a := by
  induction roots with
  | nil => intro a root hmem; cases hmem
  | cons r rest ih =>
    intro a root hmem s hs
    rw [List.foldl_cons]
    rcases List.mem_cons.mp hmem with h1 | h1
    · subst h1
      obtain ⟨hf, hi⟩ := lastRunStep_ge_times env a root s hs
      have := foldl_lastRun_ge env rest (lastRunStep env a root)
      exact ⟨le_trans hf this, le_trans hi this⟩
    · exact ih (lastRunStep env a r) root h1 s hs

theorem foldl_lastRun_cases (env : ScanEnv) (roots : List String) :
    ∀ a, roots.foldl (lastRunStep env) a = a ∨
      ∃ root ∈ roots, ∃ s, env.scanStateRead root = some s ∧
        (roots.foldl (lastRunStep env) a = s.LastFullScan ∨
          roots.foldl (lastRunStep env) a = s.LastIncrementalScan) := by
  induction roots with
  | nil => intro a; exact Or.inl rfl
  | cons r rest ih =>
    intro a
    rw [List.foldl_cons]
    rcases ih (lastRunStep env a r) with h1 | h1
    · rw [h1]
      rcases lastRunStep_cases env a r with h2 | ⟨s, hs, h2⟩
      · exact Or.inl h2
      · exact Or.inr ⟨r, List.mem_cons_self r rest, s, hs, h2⟩
    · obtain ⟨root, hmem, s, hs, h2⟩ := h1
      exact Or.inr ⟨root, List.mem_cons.mpr (Or.inr hmem), s, hs, h2⟩

/-- Claim C7: `LoadFromStore` returns the count of records read, replaces
the in-memory map with exactly the records read (keyed by normalized path,
later duplicates winning as Go map assignment does), resets `Processed` to 0
and `Mode` to incremental, clears the error, and publishes as
`LastSuccessfulRun` the most recent of the readable per-root full and
incremental scan timestamps (the zero time if there is none). -/
theorem claim_c7_load_from_store (env : ScanEnv) (records : List StoreRecord)
    (roots : List String) (st : IndexerSt) :
    (LoadFromStore env records roots st).2 = records.length
    ∧ (∀ p, mapGet (LoadFromStore env records roots st).1.files p =
        (records.reverse.find? (fun r => clean r.Path == p)).map
          (fun r => ⟨clean r.Path, r.Name, r.Size, r.ModTime, r.RootPath⟩))
    ∧ (LoadFromStore env records roots st).1.status.Processed = 0
    ∧ (LoadFromStore env records roots st).1.status.Mode = "incremental"
    ∧ (LoadFromStore env records roots st).1.status.Error = none
    ∧ (∀ root ∈ roots, ∀ s, env.scanStateRead root = some s →
        s.LastFullScan ≤ (LoadFromStore env records roots st).1.status.LastSuccessfulRun
        ∧ s.LastIncrementalScan ≤
            (LoadFromStore env records roots st).1.status.LastSuccessfulRun)
    ∧ ((LoadFromStore env records roots st).1.status.LastSuccessfulRun = 0 ∨
        ∃ root ∈ roots, ∃ s, env.scanStateRead root = some s ∧
          ((LoadFromStore env records roots st).1.status.LastSuccessfulRun = s.LastFullScan ∨
            (LoadFromStore env records roots st).1.status.LastSuccessfulRun =
              s.LastIncrementalScan)) := by
  refine ⟨rfl, ?_, rfl, rfl, rfl, ?_, ?_⟩
  · intro p
    exact mapGet_loadMap records p
  · intro root hmem s hs
    exact foldl_lastRun_ge_times env roots 0 root hmem s hs
  · exact foldl_lastRun_cases env roots 0

/-- Witness for C7: one stored record, one root with known scan state. -/
theorem claim_c7_witness :
    (LoadFromStore
      ⟨fun _ => [], fun _ => StatRes.ok, fun _ => false, fun _ => false,
        fun r => if r = "/r" then some ⟨"/r", 3, 5⟩ else none, fun _ => 0, 0⟩
      [⟨"/r//x.txt", "x.txt", 1, 2, "/r"⟩] ["/r"]
      ⟨[], ⟨"", false, "", 9, 0, 0, 0, 0, none⟩, [], false⟩).2 = 1
    ∧ (3 : Int) ≤
      (LoadFromStore
        ⟨fun _ => [], fun _ => StatRes.ok, fun _ => false, fun _ => false,
          fun r => if r = "/r" then some ⟨"/r", 3, 5⟩ else none, fun _ => 0, 0⟩
        [⟨"/r//x.txt", "x.txt", 1, 2, "/r"⟩] ["/r"]
        ⟨[], ⟨"", false, "", 9, 0, 0, 0, 0, none⟩, [], false⟩).1.status.LastSuccessfulRun :=
  ⟨(claim_c7_load_from_store
      ⟨fun _ => [], fun _ => StatRes.ok, fun _ => false, fun _ => false,
        fun r => if r = "/r" then some ⟨"/r", 3, 5⟩ else none, fun _ => 0, 0⟩
      [⟨"/r//x.txt", "x.txt", 1, 2, "/r"⟩] ["/r"]
      ⟨[], ⟨"", false, "", 9, 0, 0, 0, 0, none⟩, [], false⟩).1,
   ((claim_c7_load_from_store
      ⟨fun _ => [], fun _ => StatRes.ok, fun _ => false, fun _ => false,
        fun r => if r = "/r" then some ⟨"/r", 3, 5⟩ else none, fun _ => 0, 0⟩
      [⟨"/r//x.txt", "x.txt", 1, 2, "/r"⟩] ["/r"]
      ⟨[], ⟨"", false, "", 9, 0, 0, 0, 0, none⟩, [], false⟩).2.2.2.2.2.1
      "/r" (by decide) ⟨"/r", 3, 5⟩ (by decide)).1⟩

/-! ## Claim C6: deletion reconciliation -/

theorem removeLoop_cons_ok (env : ScanEnv) (st : IndexerSt) (p : String)
    (rest : List String) (h : env.stat p = StatRes.ok) :
    removeLoop env st (p :: rest) = removeLoop env st rest := by
  conv_lhs => unfold removeLoop
  rw [h]

theorem removeLoop_cons_otherErr (env : ScanEnv) (st : IndexerSt) (p : String)
    (rest : List String) (h : env.stat p = StatRes.otherErr) :
    removeLoop env st (p :: rest) = removeLoop env st rest := by
  conv_lhs => unfold removeLoop
  rw [h]

theorem removeLoop_cons_notExist_fail (env : ScanEnv) (st : IndexerSt) (p : String)
    (rest : List String) (h : env.stat p = StatRes.notExist)
    (hf : env.deleteFails (clean p) = true) :
    removeLoop env st (p :: rest) =
      ((deleteRecord env st p).1, some (IOErr.deleteErr (clean p))) := by
  conv_lhs => unfold removeLoop
  rw [h]
  dsimp only
  rw [deleteRecord_snd, if_pos hf]

theorem removeLoop_cons_notExist_del (env : ScanEnv) (st : IndexerSt) (p : String)
    (rest : List String) (h : env.stat p = StatRes.notExist)
    (hf : env.deleteFails (clean p) = false) :
    removeLoop env st (p :: rest) = removeLoop env (deleteRecord env st p).1 rest := by
  conv_lhs => unfold removeLoop
  rw [h]
  dsimp only
  rw [deleteRecord_snd, if_neg (by rw [hf]; simp)]

theorem removeLoop_spec (env : ScanEnv) (cands : List String) :
    ∀ st : IndexerSt, (∀ p ∈ cands, clean p = p) →
      (∀ p, mapGet (removeLoop env st cands).1.files p = none →
        mapGet st.files p = none ∨ (p ∈ cands ∧ env.stat p = StatRes.notExist))
      ∧ (∀ p, p ∉ cands → mapGet (removeLoop env st cands).1.files p = mapGet st.files p)
      ∧ (∀ op, op ∈ (removeLoop env st cands).1.storeOps →
          op ∈ st.storeOps ∨
            ∃ pd, op = StoreOp.del pd ∧ pd ∈ cands ∧ env.stat pd = StatRes.notExist) := by
  induction cands with
  | nil =>
    intro st _
    refine ⟨fun p h => Or.inl h, fun p _ => rfl, fun op h => Or.inl h⟩
  | cons p rest ih =>
    intro st hclean
    have hcleanp : clean p = p := hclean p (List.mem_cons_self p rest)
    have hcleanrest : ∀ x ∈ rest, clean x = x :=
      fun x hx => hclean x (List.mem_cons.mpr (Or.inr hx))
    have hdelget : ∀ p', mapGet (deleteRecord env st p).1.files p' =
        if p' = p then none else mapGet st.files p' := by
      intro p'
      rw [deleteRecord_fst]
      dsimp only
      rw [hcleanp]
      exact mapGet_mapDel st.files p p'
    have hdelops : (deleteRecord env st p).1.storeOps =
        st.storeOps ++ [StoreOp.del p] := by
      rw [deleteRecord_fst]
      dsimp only
      rw [hcleanp]
    cases hs : env.stat p with
    | ok =>
      rw [removeLoop_cons_ok env st p rest hs]
      obtain ⟨i1, i2, i3⟩ := ih st hcleanrest
      refine ⟨?_, ?_, ?_⟩
      · intro p' h
        rcases i1 p' h with h1 | ⟨h1, h2⟩
        · exact Or.inl h1
        · exact Or.inr ⟨List.mem_cons.mpr (Or.inr h1), h2⟩
      · intro p' hnm
        exact i2 p' (fun hx => hnm (List.mem_cons.mpr (Or.inr hx)))
      · intro op h
        rcases i3 op h with h1 | ⟨pd, h1, h2, h3⟩
        · exact Or.inl h1
        · exact Or.inr ⟨pd, h1, List.mem_cons.mpr (Or.inr h2), h3⟩
    | otherErr =>
      rw [removeLoop_cons_otherErr env st p rest hs]
      obtain ⟨i1, i2, i3⟩ := ih st hcleanrest
      refine ⟨?_, ?_, ?_⟩
      · intro p' h
        rcases i1 p' h with h1 | ⟨h1, h2⟩
        · exact Or.inl h1
        · exact Or.inr ⟨List.mem_cons.mpr (Or.inr h1), h2⟩
      · intro p' hnm
        exact i2 p' (fun hx => hnm (List.mem_cons.mpr (Or.inr hx)))
      · intro op h
        rcases i3 op h with h1 | ⟨pd, h1, h2, h3⟩
        · exact Or.inl h1
        · exact Or.inr ⟨pd, h1, List.mem_cons.mpr (Or.inr h2), h3⟩
    | notExist =>
      cases hf : env.deleteFails (clean p) with
      | true =>
        rw [removeLoop_cons_notExist_fail env st p rest hs hf]
        refine ⟨?_, ?_, ?_⟩
        · intro p' h
          dsimp only at h
          rw [hdelget p'] at h
          by_cases hp : p' = p
          · subst hp
            exact Or.inr ⟨List.mem_cons_self p' rest, hs⟩
          · rw [if_neg hp] at h
            exact Or.inl h
        · intro p' hnm
          dsimp only
          rw [hdelget p']
          rw [if_neg (fun hp => hnm (by rw [hp]; exact List.mem_cons_self p rest))]
        · intro op h
          dsimp only at h
          rw [hdelops] at h
          rcases List.mem_append.mp h with h1 | h1
          · exact Or.inl h1
          · rw [List.mem_singleton.mp h1]
            exact Or.inr ⟨p, rfl, List.mem_cons_self p rest, hs⟩
      | false =>
        rw [removeLoop_cons_notExist_del env st p rest hs hf]
        obtain ⟨i1, i2, i3⟩ := ih (deleteRecord env st p).1 hcleanrest
        refine ⟨?_, ?_, ?_⟩
        · intro p' h
          rcases i1 p' h with h1 | ⟨h1, h2⟩
          · rw [hdelget p'] at h1
            by_cases hp : p' = p
            · subst hp
              exact Or.inr ⟨List.mem_cons_self p' rest, hs⟩
            · rw [if_neg hp] at h1
              exact Or.inl h1
          · exact Or.inr ⟨List.mem_cons.mpr (Or.inr h1), h2⟩
        · intro p' hnm
          rw [i2 p' (fun hx => hnm (List.mem_cons.mpr (Or.inr hx)))]
          rw [hdelget p']
          rw [if_neg (fun hp => hnm (by rw [hp]; exact List.mem_cons_self p rest))]
        · intro op h
          rcases i3 op h with h1 | ⟨pd, h1, h2, h3⟩
          · rw [hdelops] at h1
            rcases List.mem_append.mp h1 with h2 | h2
            · exact Or.inl h2
            · rw [List.mem_singleton.mp h2]
              exact Or.inr ⟨p, rfl, List.mem_cons_self p rest, hs⟩
          · exact Or.inr ⟨pd, h1, List.mem_cons.mpr (Or.inr h2), h3⟩

theorem mem_removeCandidates (files : List (String × FileRecord)) (seen scanned : List String)
    (p : String) :
    p ∈ removeCandidates files seen scanned ↔
      ∃ e ∈ files, e.1 = p ∧ e.2.RootPath ∈ scanned ∧ ¬ p ∈ seen := by
  unfold removeCandidates
  simp only [List.mem_map, List.mem_filter, Bool.and_eq_true, Bool.not_eq_true']
  constructor
  · rintro ⟨e, ⟨he, hc1, hc2⟩, hp⟩
    refine ⟨e, he, hp, ?_, ?_⟩
    · simpa using hc1
    · subst hp
      simpa using hc2
  · rintro ⟨e, he, hp, hroot, hseen⟩
    refine ⟨e, ⟨he, by simpa using hroot, ?_⟩, hp⟩
    subst hp
    simpa using hseen

theorem mapGet_of_mem_nodup {m : List (String × FileRecord)} {e : String × FileRecord}
    (hnodup : KeysNodup m) (he : e ∈ m) : mapGet m e.1 = some e.2 := by
  induction m with
  | nil => cases he
  | cons x rest ih =>
    rcases List.mem_cons.mp he with h1 | h1
    · subst h1
      unfold mapGet
      rw [List.find?_cons_of_pos _ (by simp)]
      rfl
    · have hxk : ¬ x.1 = e.1 := by
        intro hxe
        have h2 := (List.nodup_cons.mp hnodup).1
        exact h2 (hxe ▸ List.mem_map.mpr ⟨e, h1, rfl⟩)
      unfold mapGet
      rw [List.find?_cons_of_neg _ (by simp; exact fun hh => hxk hh)]
      exact ih (List.nodup_cons.mp hnodup).2 h1

/-- Claim C6: deletion reconciliation removes a record only when its root
was scanned in this pass, its path was not marked seen, and the filesystem
check confirms the file no longer exists; every record whose root was not
scanned is left untouched in the index, and the only store calls issued are
deletes of paths meeting all three conditions. -/
theorem claim_c6_remove_missing (env : ScanEnv) (st : IndexerSt) (seen scanned : List String)
    (hnorm : NormalizedKeys st.files) (hnodup : KeysNodup st.files) :
    (∀ p r, mapGet st.files p = some r →
        mapGet (removeMissing env st seen scanned).1.files p = none →
        r.RootPath ∈ scanned ∧ ¬ p ∈ seen ∧ env.stat p = StatRes.notExist)
    ∧ (∀ p r, mapGet st.files p = some r → ¬ r.RootPath ∈ scanned →
        mapGet (removeMissing env st seen scanned).1.files p = some r)
    ∧ (∀ op, op ∈ (removeMissing env st seen scanned).1.storeOps →
        op ∈ st.storeOps ∨
          ∃ pd rr, op = StoreOp.del pd ∧ mapGet st.files pd = some rr ∧
            rr.RootPath ∈ scanned ∧ ¬ pd ∈ seen ∧ env.stat pd = StatRes.notExist) := by
  have hcands : ∀ p ∈ removeCandidates st.files seen scanned, clean p = p := by
    intro p hp
    obtain ⟨e, he, hp1, _, _⟩ := (mem_removeCandidates st.files seen scanned p).mp hp
    exact hp1 ▸ (hnorm e he).1
  have hcandget : ∀ p, p ∈ removeCandidates st.files seen scanned →
      ∃ rr, mapGet st.files p = some rr ∧ rr.RootPath ∈ scanned ∧ ¬ p ∈ seen := by
    intro p hp
    obtain ⟨e, he, hp1, hroot, hseen⟩ := (mem_removeCandidates st.files seen scanned p).mp hp
    exact ⟨e.2, hp1 ▸ mapGet_of_mem_nodup hnodup he, hroot, hseen⟩
  obtain ⟨i1, i2, i3⟩ := removeLoop_spec env (removeCandidates st.files seen scanned) st hcands
  refine ⟨?_, ?_, ?_⟩
  · intro p r hget hnone
    rcases i1 p hnone with h1 | ⟨h1, h2⟩
    · rw [hget] at h1; cases h1
    · obtain ⟨rr, hrr, hroot, hseen⟩ := hcandget p h1
      rw [hget] at hrr
      cases hrr
      exact ⟨hroot, hseen, h2⟩
  · intro p r hget hnroot
    have hpnc : ¬ p ∈ removeCandidates st.files seen scanned := by
      intro hp
      obtain ⟨rr, hrr, hroot, _⟩ := hcandget p hp
      rw [hget] at hrr
      cases hrr
      exact hnroot hroot
    show mapGet (removeLoop env st (removeCandidates st.files seen scanned)).1.files p = some r
    rw [i2 p hpnc]
    exact hget
  · intro op h
    rcases i3 op h with h1 | ⟨pd, h1, h2, h3⟩
    · exact Or.inl h1
    · obtain ⟨rr, hrr, hroot, hseen⟩ := hcandget pd h2
      exact Or.inr ⟨pd, rr, h1, hrr, hroot, hseen, h3⟩

/-- Witness for C6: with one scanned root and one unscanned root, only the
unseen missing file of the scanned root is removed; the unscanned root's
record survives. -/
theorem claim_c6_witness :
    mapGet (removeMissing
      ⟨fun _ => [], fun _ => StatRes.notExist, fun _ => false, fun _ => false,
        fun _ => none, fun _ => 0, 0⟩
      ⟨[("/r/x.txt", ⟨"/r/x.txt", "x.txt", 1, 2, "/r"⟩),
        ("/s/y.txt", ⟨"/s/y.txt", "y.txt", 3, 4, "/s"⟩)],
        ⟨"", false, "", 0, 0, 0, 0, 0, none⟩, [], false⟩
      [] ["/r"]).1.files "/s/y.txt" = some ⟨"/s/y.txt", "y.txt", 3, 4, "/s"⟩ :=
  ((claim_c6_remove_missing
      ⟨fun _ => [], fun _ => StatRes.notExist, fun _ => false, fun _ => false,
        fun _ => none, fun _ => 0, 0⟩
      ⟨[("/r/x.txt", ⟨"/r/x.txt", "x.txt", 1, 2, "/r"⟩),
        ("/s/y.txt", ⟨"/s/y.txt", "y.txt", 3, 4, "/s"⟩)],
        ⟨"", false, "", 0, 0, 0, 0, 0, none⟩, [], false⟩
      [] ["/r"] (by unfold NormalizedKeys; decide) (by unfold KeysNodup; decide)).2.1
    "/s/y.txt" ⟨"/s/y.txt", "y.txt", 3, 4, "/s"⟩ (by decide) (by decide))

/-! ## Claim C3: store write failures during a scan -/

/-- Counterexample to C3 as stated: with one root containing two files where
the store upsert of the first file fails, the walk of that root is aborted —
the second file is never processed (`Processed` stays 1 and the second file
is absent from the index), even though the scan finishes and reports the
error.  The claim asserts that processing of the remaining files of the
root is not aborted, which would give `Processed` 2 and an index entry for
the second file under full mode. -/
theorem claim_c3_counterexample :
    (runScan
      ⟨fun root => if root = "/r" then [⟨"/r/a", "a", 1, 1⟩, ⟨"/r/b", "b", 2, 2⟩] else [],
        fun _ => StatRes.ok, fun p => p == "/r/a", fun _ => false,
        fun _ => none, fun _ => 0, 7⟩
      ScanMode.full ⟨[], ⟨"", false, "", 0, 0, 0, 0, 0, none⟩, [], false⟩
      ["/r"]).status.Processed = 1
    ∧ mapGet (runScan
      ⟨fun root => if root = "/r" then [⟨"/r/a", "a", 1, 1⟩, ⟨"/r/b", "b", 2, 2⟩] else [],
        fun _ => StatRes.ok, fun p => p == "/r/a", fun _ => false,
        fun _ => none, fun _ => 0, 7⟩
      ScanMode.full ⟨[], ⟨"", false, "", 0, 0, 0, 0, 0, none⟩, [], false⟩
      ["/r"]).files "/r/b" = none
    ∧ (runScan
      ⟨fun root => if root = "/r" then [⟨"/r/a", "a", 1, 1⟩, ⟨"/r/b", "b", 2, 2⟩] else [],
        fun _ => StatRes.ok, fun p => p == "/r/a", fun _ => false,
        fun _ => none, fun _ => 0, 7⟩
      ScanMode.full ⟨[], ⟨"", false, "", 0, 0, 0, 0, 0, none⟩, [], false⟩
      ["/r"]).status.Error = some (IOErr.upsertErr "/r/a") := by
  refine ⟨by decide, by decide, by decide⟩

theorem scanRoot_firstErr_some (env : ScanEnv) (mode : ScanMode) (acc : ScanAcc)
    (root : String) (e : IOErr) (h : acc.firstErr = some e) :
    (scanRoot env mode acc root).firstErr = some e := by
  unfold scanRoot
  dsimp only
  split
  · dsimp only
    rw [h]
    rfl
  · dsimp only
    exact h

theorem scanLoop_firstErr_some (env : ScanEnv) (mode : ScanMode) (roots : List String) :
    ∀ (acc : ScanAcc) (e : IOErr), acc.firstErr = some e →
      (scanLoop env mode acc roots).firstErr = some e := by
  induction roots with
  | nil => intro acc e h; exact h
  | cons r rest ih =>
    intro acc e h
    unfold scanLoop
    rw [List.foldl_cons]
    exact ih (scanRoot env mode acc r) e (scanRoot_firstErr_some env mode acc r e h)

theorem scanRoot_of_walk_err (env : ScanEnv) (mode : ScanMode) (acc : ScanAcc)
    (root : String) (st2 : IndexerSt) (seen2 : List String) (proc2 : Int) (e : IOErr)
    (hwalk : walkRoot env root mode acc.st acc.seen acc.processed =
      (st2, seen2, proc2, some e)) :
    scanRoot env mode acc root = ⟨st2, seen2, proc2, acc.firstErr <|> some e, acc.scanned⟩ := by
  unfold scanRoot
  rw [hwalk]

/-- Claim C3, amended: when the store write-through fails for a file of root
`r`, the error is recorded (and, being first, survives every later root and
the deletion pass), the walk of `r` stops where it failed and `r` is not
marked scanned, but the remaining roots are still processed from the
post-failure state, and the scan finishes — `Running` false, `FinishedAt`
set — reporting the error in its final status. -/
theorem claim_c3_amended (env : ScanEnv) (mode : ScanMode) (st0 : IndexerSt)
    (rs1 : List String) (r : String) (rs2 : List String)
    (st1 : IndexerSt) (seen1 : List String) (proc1 : Int) (scanned1 : List String)
    (st2 : IndexerSt) (seen2 : List String) (proc2 : Int) (e : IOErr)
    (hloop : scanLoop env mode ⟨st0, [], 0, none, []⟩ rs1 =
      ⟨st1, seen1, proc1, none, scanned1⟩)
    (hwalk : walkRoot env r mode st1 seen1 proc1 = (st2, seen2, proc2, some e)) :
    scanLoop env mode ⟨st0, [], 0, none, []⟩ (rs1 ++ r :: rs2) =
      scanLoop env mode ⟨st2, seen2, proc2, some e, scanned1⟩ rs2
    ∧ (scanLoop env mode ⟨st0, [], 0, none, []⟩ (rs1 ++ r :: rs2)).firstErr = some e
    ∧ (runScan env mode st0 (rs1 ++ r :: rs2)).status.Error = some e
    ∧ (runScan env mode st0 (rs1 ++ r :: rs2)).status.Running = false
    ∧ (runScan env mode st0 (rs1 ++ r :: rs2)).status.FinishedAt = env.finishTime := by
  have h1 : scanLoop env mode ⟨st0, [], 0, none, []⟩ (rs1 ++ r :: rs2) =
      scanLoop env mode ⟨st2, seen2, proc2, some e, scanned1⟩ rs2 := by
    show List.foldl (scanRoot env mode) ⟨st0, [], 0, none, []⟩ (rs1 ++ r :: rs2) = _
    rw [List.foldl_append, List.foldl_cons]
    rw [show List.foldl (scanRoot env mode) ⟨st0, [], 0, none, []⟩ rs1 =
      (⟨st1, seen1, proc1, none, scanned1⟩ : ScanAcc) from hloop]
    rw [scanRoot_of_walk_err env mode ⟨st1, seen1, proc1, none, scanned1⟩ r
      st2 seen2 proc2 e hwalk]
    rfl
  have hacc : (scanLoop env mode ⟨st0, [], 0, none, []⟩ (rs1 ++ r :: rs2)).firstErr = some e := by
    rw [h1]
    exact scanLoop_firstErr_some env mode rs2 ⟨st2, seen2, proc2, some e, scanned1⟩ e rfl
  have herr : (runScan env mode st0 (rs1 ++ r :: rs2)).status.Error = some e := by
    unfold runScan
    dsimp only
    rw [hacc]
    rfl
  exact ⟨h1, hacc, herr, rfl, rfl⟩

/-- Witness for the amended C3: two roots; the first root's only file fails
to write through, the second root is still walked and its scan state is
updated, and the final status reports the first error. -/
theorem claim_c3_amended_witness :
    (runScan
      ⟨fun root => if root = "/r" then [⟨"/r/a", "a", 1, 1⟩]
        else if root = "/s" then [⟨"/s/c", "c", 3, 3⟩] else [],
        fun _ => StatRes.ok, fun p => p == "/r/a", fun _ => false,
        fun _ => none, fun _ => 5, 7⟩
      ScanMode.full ⟨[], ⟨"", false, "", 0, 0, 0, 0, 0, none⟩, [], false⟩
      ["/r", "/s"]).status.Error = some (IOErr.upsertErr "/r/a")
    ∧ (runScan
      ⟨fun root => if root = "/r" then [⟨"/r/a", "a", 1, 1⟩]
        else if root = "/s" then [⟨"/s/c", "c", 3, 3⟩] else [],
        fun _ => StatRes.ok, fun p => p == "/r/a", fun _ => false,
        fun _ => none, fun _ => 5, 7⟩
      ScanMode.full ⟨[], ⟨"", false, "", 0, 0, 0, 0, 0, none⟩, [], false⟩
      ["/r", "/s"]).status.Running = false := by
  constructor
  · exact (claim_c3_amended
      ⟨fun root => if root = "/r" then [⟨"/r/a", "a", 1, 1⟩]
        else if root = "/s" then [⟨"/s/c", "c", 3, 3⟩] else [],
        fun _ => StatRes.ok, fun p => p == "/r/a", fun _ => false,
        fun _ => none, fun _ => 5, 7⟩
      ScanMode.full ⟨[], ⟨"", false, "", 0, 0, 0, 0, 0, none⟩, [], false⟩
      [] "/r" ["/s"] ⟨[], ⟨"", false, "", 0, 0, 0, 0, 0, none⟩, [], false⟩ [] 0 []
      ⟨[("/r/a", ⟨"/r/a", "a", 1, 1, "/r"⟩)], ⟨"", false, "/r/a", 1, 0, 0, 0, 0, none⟩,
        [StoreOp.upsert ⟨"/r/a", "a", 1, 1, "/r"⟩], false⟩
      ["/r/a"] 1 (IOErr.upsertErr "/r/a") rfl (by decide)).2.2.1
  · exact (claim_c3_amended
      ⟨fun root => if root = "/r" then [⟨"/r/a", "a", 1, 1⟩]
        else if root = "/s" then [⟨"/s/c", "c", 3, 3⟩] else [],
        fun _ => StatRes.ok, fun p => p == "/r/a", fun _ => false,
        fun _ => none, fun _ => 5, 7⟩
      ScanMode.full ⟨[], ⟨"", false, "", 0, 0, 0, 0, 0, none⟩, [], false⟩
      [] "/r" ["/s"] ⟨[], ⟨"", false, "", 0, 0, 0, 0, 0, none⟩, [], false⟩ [] 0 []
      ⟨[("/r/a", ⟨"/r/a", "a", 1, 1, "/r"⟩)], ⟨"", false, "/r/a", 1, 0, 0, 0, 0, none⟩,
        [StoreOp.upsert ⟨"/r/a", "a", 1, 1, "/r"⟩], false⟩
      ["/r/a"] 1 (IOErr.upsertErr "/r/a") rfl (by decide)).2.2.2.1

/-! ## Claim C8: the name matcher -/

/-- Counterexample to C8 as stated: the matcher trims the pattern before
everything else, so the non-empty, wildcard-free pattern consisting of two
spaces matches the name `x` even though it is not a (case-insensitive)
substring of it — contradicting the claimed substring characterization for
non-empty patterns. -/
theorem claim_c8_counterexample :
    ("  " : String) ≠ ""
    ∧ hasWildcard (goToLower "  ") = false
    ∧ nameMatches "  " "x" = true
    ∧ containsStr (goToLower "  ").data (goToLower "x").data = false :=
  ⟨by decide, by decide, by decide, by decide⟩

theorem isPrefixOf_eq_true_iff (n : List Char) :
    ∀ h : List Char, n.isPrefixOf h = true ↔ ∃ t, n ++ t = h := by
  induction n with
  | nil =>
    intro h
    simp [List.isPrefixOf]
  | cons c cs ih =>
    intro h
    cases h with
    | nil =>
      simp [List.isPrefixOf]
    | cons d ds =>
      rw [show (c :: cs).isPrefixOf (d :: ds) = (c == d && cs.isPrefixOf ds) from rfl]
      simp only [Bool.and_eq_true, beq_iff_eq, ih ds]
      constructor
      · rintro ⟨rfl, t, rfl⟩
        exact ⟨t, rfl⟩
      · rintro ⟨t, ht⟩
        rw [List.cons_append] at ht
        injection ht with h1 h2
        exact ⟨h1, t, h2⟩

theorem containsStr_iff (needle : List Char) :
    ∀ hay : List Char, containsStr needle hay = true ↔
      ∃ pre post, hay = pre ++ needle ++ post := by
  intro hay
  induction hay with
  | nil =>
    rw [show containsStr needle [] = needle.isEmpty from rfl]
    constructor
    · intro h
      have : needle = [] := by
        cases needle with
        | nil => rfl
        | cons c cs => cases h
      exact ⟨[], [], by simp [this]⟩
    · rintro ⟨pre, post, hp⟩
      have h1 := List.append_eq_nil.mp (List.append_eq_nil.mp hp.symm).1
      rw [h1.2]
      rfl
  | cons c t ih =>
    rw [show containsStr needle (c :: t) =
      (needle.isPrefixOf (c :: t) || containsStr needle t) from rfl]
    simp only [Bool.or_eq_true, ih, isPrefixOf_eq_true_iff]
    constructor
    · rintro (⟨t2, ht⟩ | ⟨pre, post, hp⟩)
      · exact ⟨[], t2, by simp [← ht]⟩
      · exact ⟨c :: pre, post, by simp [hp]⟩
    · rintro ⟨pre, post, hp⟩
      cases pre with
      | nil =>
        left
        exact ⟨post, by simpa using hp.symm⟩
      | cons d pres =>
        right
        rw [List.cons_append, List.cons_append] at hp
        injection hp with h1 h2
        exact ⟨pres, post, h2⟩

theorem WildSem_star_inv {ps : List WildTok} {s : List Char}
    (h : WildSem (.star :: ps) s) :
    ∃ run xs, s = run ++ xs ∧ (∀ c ∈ run, c ≠ '\n') ∧ WildSem ps xs := by
  cases h with
  | star hrun hsem => exact ⟨_, _, rfl, hrun, hsem⟩

theorem wildMatches_iff_sem : ∀ (p : List WildTok) (s : List Char),
    wildMatches p s = true ↔ WildSem p s := by
  suffices h : ∀ (n : Nat) (p : List WildTok) (s : List Char), s.length + p.length ≤ n →
      (wildMatches p s = true ↔ WildSem p s) from
    fun p s => h (s.length + p.length) p s le_rfl
  intro n
  induction n with
  | zero =>
    intro p s hle
    have hs : s = [] := by
      cases s with
      | nil => rfl
      | cons x xs => simp at hle
    have hp : p = [] := by
      cases p with
      | nil => rfl
      | cons t ps => subst hs; simp at hle
    subst hs
    subst hp
    simp only [wildMatches]
    exact ⟨fun _ => WildSem.nil, fun _ => trivial⟩
  | succ n ih =>
    intro p s hle
    cases p with
    | nil =>
      cases s with
      | nil =>
        simp only [wildMatches]
        exact ⟨fun _ => WildSem.nil, fun _ => trivial⟩
      | cons x xs =>
        simp only [wildMatches]
        constructor
        · intro h; cases h
        · intro h; cases h
    | cons tok ps =>
      cases tok with
      | lit c =>
        cases s with
        | nil =>
          simp only [wildMatches]
          constructor
          · intro h; cases h
          · intro h; cases h
        | cons x xs =>
          simp only [wildMatches, Bool.and_eq_true, decide_eq_true_eq]
          constructor
          · rintro ⟨rfl, h2⟩
            exact WildSem.lit ((ih ps xs (by simp at hle ⊢; omega)).mp h2)
          · intro h
            cases h with
            | lit hsem => exact ⟨rfl, (ih ps xs (by simp at hle ⊢; omega)).mpr hsem⟩
      | one =>
        cases s with
        | nil =>
          simp only [wildMatches]
          constructor
          · intro h; cases h
          · intro h; cases h
        | cons x xs =>
          simp only [wildMatches, Bool.and_eq_true, Bool.not_eq_true',
            decide_eq_false_iff_not]
          constructor
          · rintro ⟨h1, h2⟩
            exact WildSem.one h1 ((ih ps xs (by simp at hle ⊢; omega)).mp h2)
          · intro h
            cases h with
            | one hx hsem => exact ⟨hx, (ih ps xs (by simp at hle ⊢; omega)).mpr hsem⟩
      | star =>
        cases s with
        | nil =>
          simp only [wildMatches]
          constructor
          · intro h
            have hsem := (ih ps [] (by simp at hle ⊢; omega)).mp h
            have hscons := @WildSem.star [] ps [] (by simp) hsem
            simpa using hscons
          · intro h
            obtain ⟨run, xs, heq, hrun, hsem⟩ := WildSem_star_inv h
            obtain ⟨hrun0, hxs0⟩ := List.append_eq_nil.mp heq.symm
            subst hrun0
            subst hxs0
            exact (ih ps [] (by simp at hle ⊢; omega)).mpr hsem
        | cons x xs =>
          simp only [wildMatches, Bool.or_eq_true, Bool.and_eq_true, Bool.not_eq_true',
            decide_eq_false_iff_not]
          constructor
          · rintro (h | ⟨h1, h2⟩)
            · have hsem := (ih ps (x :: xs) (by simp at hle ⊢; omega)).mp h
              have hscons := @WildSem.star [] ps (x :: xs) (by simp) hsem
              simpa using hscons
            · have hsem := (ih (.star :: ps) xs (by simp at hle ⊢; omega)).mp h2
              obtain ⟨run, xs2, heq, hrun, hsem2⟩ := WildSem_star_inv hsem
              subst heq
              have hscons := @WildSem.star (x :: run) ps xs2
                (by
                  intro cc hcc
                  rcases List.mem_cons.mp hcc with h3 | h3
                  · rw [h3]; exact h1
                  · exact hrun cc h3) hsem2
              simpa using hscons
          · intro h
            obtain ⟨run, xs2, heq, hrun, hsem⟩ := WildSem_star_inv h
            cases run with
            | nil =>
              left
              apply (ih ps (x :: xs) (by simp at hle ⊢; omega)).mpr
              simp only [List.nil_append] at heq
              rw [← heq] at hsem
              exact hsem
            | cons y ys =>
              right
              rw [List.cons_append] at heq
              injection heq with h1 h2
              refine ⟨?_, ?_⟩
              · rw [h1]
                exact hrun y (List.mem_cons_self y ys)
              · apply (ih (.star :: ps) xs (by simp at hle ⊢; omega)).mpr
                rw [h2]
                exact WildSem.star (fun cc hcc => hrun cc (List.mem_cons.mpr (Or.inr hcc))) hsem

/-- Claim C8, amended: the matcher first trims surrounding whitespace from
the pattern.  A pattern that is empty after trimming matches every name; a
trimmed pattern containing `*` or `?` matches a name exactly when the whole
name matches the anchored case-insensitive wildcard pattern, where `?`
matches exactly one character other than a newline and `*` any run of
characters not containing a newline (Go regular-expression `.` semantics);
any other pattern matches exactly the names of which the trimmed pattern is
a case-insensitive substring. -/
theorem claim_c8_amended (pattern name : String) :
    (trimSpace pattern = "" → nameMatches pattern name = true)
    ∧ (¬ trimSpace pattern = "" → hasWildcard (goToLower (trimSpace pattern)) = true →
        (nameMatches pattern name = true ↔
          WildSem (parseWild (goToLower (trimSpace pattern)).data) (goToLower name).data))
    ∧ (¬ trimSpace pattern = "" → hasWildcard (goToLower (trimSpace pattern)) = false →
        (nameMatches pattern name = true ↔
          ∃ pre post,
            (goToLower name).data = pre ++ (goToLower (trimSpace pattern)).data ++ post)) := by
  refine ⟨?_, ?_, ?_⟩
  · intro h
    unfold nameMatches buildNameMatcher
    rw [if_pos h]
  · intro h hw
    unfold nameMatches buildNameMatcher
    rw [if_neg h]
    dsimp only
    rw [if_pos hw]
    exact wildMatches_iff_sem _ _
  · intro h hw
    unfold nameMatches buildNameMatcher
    rw [if_neg h]
    dsimp only
    rw [if_neg (by rw [hw]; simp)]
    exact containsStr_iff _ _

/-- Witness for the amended C8: the padded wildcard pattern matches through
the declarative wildcard semantics. -/
theorem claim_c8_amended_witness :
    nameMatches " a*c " "aXXc" = true ↔
      WildSem (parseWild (goToLower (trimSpace " a*c ")).data) (goToLower "aXXc").data :=
  (claim_c8_amended " a*c " "aXXc").2.1 (by decide) (by decide)

/-! ## Claim C2: the sort comparator is a strict total order -/

theorem cmpk_eq_zero_iff {α : Type} [LinearOrder α] {x y : α} : cmpk x y = 0 ↔ x = y := by
  unfold cmpk
  rcases lt_trichotomy x y with h | rfl | h
  · rw [if_pos h]
    simp [ne_of_lt h]
  · rw [if_neg (lt_irrefl x), if_neg (lt_irrefl x)]
    simp
  · rw [if_neg (asymm h), if_pos h]
    simp [ne_of_gt h]

theorem cmpk_neg_iff {α : Type} [LinearOrder α] {x y : α} : cmpk x y < 0 ↔ x < y := by
  unfold cmpk
  rcases lt_trichotomy x y with h | rfl | h
  · rw [if_pos h]
    simp [h]
  · rw [if_neg (lt_irrefl x), if_neg (lt_irrefl x)]
    simp
  · rw [if_neg (asymm h), if_pos h]
    simp [asymm h]

theorem cmpk_pos_iff {α : Type} [LinearOrder α] {x y : α} : 0 < cmpk x y ↔ y < x := by
  unfold cmpk
  rcases lt_trichotomy x y with h | rfl | h
  · rw [if_pos h]
    simp [asymm h]
  · rw [if_neg (lt_irrefl x), if_neg (lt_irrefl x)]
    simp
  · rw [if_neg (asymm h), if_pos h]
    simp [h]

theorem compareRecords_size (f : String) (h : goToLower f = "size") (a b : FileRecord) :
    compareRecords a b f = cmpk a.Size b.Size := by
  unfold compareRecords
  dsimp only
  rw [if_pos h]

theorem compareRecords_modified (f : String)
    (h : goToLower f = "modified" ∨ goToLower f = "time") (a b : FileRecord) :
    compareRecords a b f = cmpk a.ModTime b.ModTime := by
  unfold compareRecords
  dsimp only
  rw [if_neg (by rcases h with h | h <;> rw [h] <;> decide), if_pos h]

theorem compareRecords_path (f : String) (h : goToLower f = "path") (a b : FileRecord) :
    compareRecords a b f = cmpk (goToLower a.Path) (goToLower b.Path) := by
  unfold compareRecords
  dsimp only
  rw [if_neg (by rw [h]; decide), if_neg (by rw [h]; decide), if_pos h]

theorem compareRecords_name (f : String) (h1 : ¬ goToLower f = "size")
    (h2 : ¬ (goToLower f = "modified" ∨ goToLower f = "time"))
    (h3 : ¬ goToLower f = "path") (a b : FileRecord) :
    compareRecords a b f = cmpk (goToLower a.Name) (goToLower b.Name) := by
  unfold compareRecords
  dsimp only
  rw [if_neg h1, if_neg h2, if_neg h3]

theorem searchLess_iff_key_asc {α : Type} [LinearOrder α] (k1 : FileRecord → α) (q : Query)
    (hC : ∀ a b, compareRecords a b q.SortField = cmpk (k1 a) (k1 b))
    (hd : q.SortDescending = false) (a b : FileRecord) :
    searchLess q a b = true ↔
      toLex (k1 a, toLex (goToLower a.Name, a.Path)) <
        toLex (k1 b, toLex (goToLower b.Name, b.Path)) := by
  unfold searchLess
  dsimp only
  rw [hC a b, hd]
  rw [Prod.Lex.lt_iff, Prod.Lex.lt_iff]
  dsimp only
  rcases lt_trichotomy (k1 a) (k1 b) with h1 | h1 | h1
  · rw [if_neg (fun h0 => (ne_of_lt h1) (cmpk_eq_zero_iff.mp h0))]
    simp [cmpk_neg_iff, h1]
  · rw [if_pos (cmpk_eq_zero_iff.mpr h1)]
    rcases lt_trichotomy (goToLower a.Name) (goToLower b.Name) with h2 | h2 | h2
    · rw [if_neg (fun h0 => (ne_of_lt h2) (cmpk_eq_zero_iff.mp h0))]
      simp [cmpk_neg_iff, h1, h2]
    · rw [if_pos (cmpk_eq_zero_iff.mpr h2)]
      by_cases hp : a.Path = b.Path
      · rw [if_pos hp]
        simp [h1, h2, hp]
      · rw [if_neg hp]
        simp [h1, h2]
    · rw [if_neg (fun h0 => (ne_of_gt h2) (cmpk_eq_zero_iff.mp h0))]
      simp [cmpk_neg_iff, h1, asymm h2, ne_of_gt h2]
  · rw [if_neg (fun h0 => (ne_of_gt h1) (cmpk_eq_zero_iff.mp h0))]
    simp [cmpk_neg_iff, asymm h1, ne_of_gt h1]

theorem searchLess_iff_key_desc {α : Type} [LinearOrder α] (k1 : FileRecord → α) (q : Query)
    (hC : ∀ a b, compareRecords a b q.SortField = cmpk (k1 a) (k1 b))
    (hd : q.SortDescending = true) (a b : FileRecord) :
    searchLess q a b = true ↔
      toLex ((OrderDual.toDual (k1 a) : αᵒᵈ),
          toLex ((OrderDual.toDual (goToLower a.Name) : Stringᵒᵈ), a.Path)) <
        toLex (OrderDual.toDual (k1 b),
          toLex (OrderDual.toDual (goToLower b.Name), b.Path)) := by
  unfold searchLess
  dsimp only
  rw [hC a b, hd]
  rw [Prod.Lex.lt_iff, Prod.Lex.lt_iff]
  dsimp only
  rw [OrderDual.toDual_lt_toDual, OrderDual.toDual_lt_toDual]
  rcases lt_trichotomy (k1 a) (k1 b) with h1 | h1 | h1
  · rw [if_neg (fun h0 => (ne_of_lt h1) (cmpk_eq_zero_iff.mp h0))]
    simp [cmpk_pos_iff, asymm h1, ne_of_lt h1]
  · rw [if_pos (cmpk_eq_zero_iff.mpr h1)]
    rcases lt_trichotomy (goToLower a.Name) (goToLower b.Name) with h2 | h2 | h2
    · rw [if_neg (fun h0 => (ne_of_lt h2) (cmpk_eq_zero_iff.mp h0))]
      simp [cmpk_pos_iff, h1, asymm h2, ne_of_lt h2]
    · rw [if_pos (cmpk_eq_zero_iff.mpr h2)]
      by_cases hp : a.Path = b.Path
      · rw [if_pos hp]
        simp [h1, h2, hp]
      · rw [if_neg hp]
        simp [h1, h2]
    · rw [if_neg (fun h0 => (ne_of_gt h2) (cmpk_eq_zero_iff.mp h0))]
      simp [cmpk_pos_iff, h1, h2]
  · rw [if_neg (fun h0 => (ne_of_gt h1) (cmpk_eq_zero_iff.mp h0))]
    simp [cmpk_pos_iff, h1]

theorem searchLess_key_of {α : Type} [LinearOrder α] (q : Query) (k1 : FileRecord → α)
    (hC : ∀ a b, compareRecords a b q.SortField = cmpk (k1 a) (k1 b)) :
    ∃ (γ : Type) (_ : LinearOrder γ) (K : FileRecord → γ),
      (∀ a b, searchLess q a b = true ↔ K a < K b) ∧
      (∀ a b, K a = K b → a.Path = b.Path) := by
  cases hd : q.SortDescending with
  | false =>
    refine ⟨α ×ₗ (String ×ₗ String), inferInstance,
      fun r => toLex (k1 r, toLex (goToLower r.Name, r.Path)), ?_, ?_⟩
    · intro a b
      exact searchLess_iff_key_asc k1 q hC hd a b
    · intro a b h
      have h1 : (k1 a, toLex (goToLower a.Name, a.Path)) =
          (k1 b, toLex (goToLower b.Name, b.Path)) := toLex_inj.mp h
      have h2 := congrArg Prod.snd h1
      dsimp only at h2
      have h3 : (goToLower a.Name, a.Path) = (goToLower b.Name, b.Path) := toLex_inj.mp h2
      exact congrArg Prod.snd h3
  | true =>
    refine ⟨αᵒᵈ ×ₗ (Stringᵒᵈ ×ₗ String), inferInstance,
      fun r => toLex (OrderDual.toDual (k1 r),
        toLex (OrderDual.toDual (goToLower r.Name), r.Path)), ?_, ?_⟩
    · intro a b
      exact searchLess_iff_key_desc k1 q hC hd a b
    · intro a b h
      have h1 : (OrderDual.toDual (k1 a), toLex (OrderDual.toDual (goToLower a.Name), a.Path)) =
          (OrderDual.toDual (k1 b), toLex (OrderDual.toDual (goToLower b.Name), b.Path)) :=
        toLex_inj.mp h
      have h2 := congrArg Prod.snd h1
      dsimp only at h2
      have h3 : (OrderDual.toDual (goToLower a.Name), a.Path) =
          (OrderDual.toDual (goToLower b.Name), b.Path) := toLex_inj.mp h2
      exact congrArg Prod.snd h3

theorem searchLess_key (q : Query) :
    ∃ (γ : Type) (_ : LinearOrder γ) (K : FileRecord → γ),
      (∀ a b, searchLess q a b = true ↔ K a < K b) ∧
      (∀ a b, K a = K b → a.Path = b.Path) := by
  by_cases hs : goToLower q.SortField = "size"
  · exact searchLess_key_of q (fun r => r.Size) (compareRecords_size q.SortField hs)
  · by_cases hm : goToLower q.SortField = "modified" ∨ goToLower q.SortField = "time"
    · exact searchLess_key_of q (fun r => r.ModTime) (compareRecords_modified q.SortField hm)
    · by_cases hp : goToLower q.SortField = "path"
      · exact searchLess_key_of q (fun r => goToLower r.Path)
          (compareRecords_path q.SortField hp)
      · exact searchLess_key_of q (fun r => goToLower r.Name)
          (compareRecords_name q.SortField hs hm hp)

theorem cons_append_of_all_eq {a : FileRecord} :
    ∀ (u v : List FileRecord), (∀ x ∈ u, x = a) → a :: (u ++ v) = u ++ a :: v := by
  intro u
  induction u with
  | nil => intro v _; rfl
  | cons x us ih =>
    intro v hall
    have hx : x = a := hall x (List.mem_cons_self x us)
    subst hx
    rw [List.cons_append, List.cons_append]
    rw [← ih v (fun y hy => hall y (List.mem_cons.mpr (Or.inr hy)))]

theorem eq_of_perm_of_sorted_on {r : FileRecord → FileRecord → Prop} :
    ∀ (l₁ l₂ : List FileRecord), l₁.Perm l₂ → List.Sorted r l₁ → List.Sorted r l₂ →
      (∀ a ∈ l₁, ∀ b ∈ l₁, r a b → r b a → a = b) → l₁ = l₂ := by
  intro l₁
  induction l₁ with
  | nil => intro l₂ hp _ _ _; exact hp.nil_eq
  | cons a l₁ ih =>
    intro l₂ hp hs₁ hs₂ hanti
    have ha₂ : a ∈ l₂ := hp.subset (List.mem_cons_self a l₁)
    obtain ⟨u₂, v₂, rfl⟩ := List.append_of_mem ha₂
    have hp' : l₁.Perm (u₂ ++ v₂) := (List.perm_cons a).1 (hp.trans List.perm_middle)
    have hanti' : ∀ x ∈ l₁, ∀ y ∈ l₁, r x y → r y x → x = y :=
      fun x hx y hy => hanti x (List.mem_cons.mpr (Or.inr hx)) y (List.mem_cons.mpr (Or.inr hy))
    have hl₁ : l₁ = u₂ ++ v₂ :=
      ih (u₂ ++ v₂) hp' hs₁.of_cons (hs₂.sublist (by simp)) hanti'
    have hall : ∀ x ∈ u₂, x = a := by
      intro x hx
      have hxl₁ : x ∈ l₁ := by
        rw [hl₁]
        exact List.mem_append.mpr (Or.inl hx)
      have hax : r a x := List.rel_of_sorted_cons hs₁ x hxl₁
      have hxa : r x a :=
        (List.pairwise_append.mp hs₂).2.2 x hx a (List.mem_cons_self a v₂)
      exact hanti x (List.mem_cons.mpr (Or.inr hxl₁)) a (List.mem_cons_self a l₁) hxa hax
    rw [hl₁]
    exact cons_append_of_all_eq u₂ v₂ hall

/-- Claim C2: for every query, the comparator used by `Search` (requested
field, direction applied, ties broken by case-insensitive name then by
path) is a strict total order on records with distinct paths — exactly one
of `a < b`, `b < a` holds — and consequently two `Search` calls over the
same unchanged index (any two arrangements of the same map) return the
`Files` sequence in the identical order. -/
theorem claim_c2_sort_strict_total_order :
    (∀ (q : Query) (a b : FileRecord), a.Path ≠ b.Path →
      (searchLess q a b = true ∧ searchLess q b a = false) ∨
      (searchLess q b a = true ∧ searchLess q a b = false))
    ∧ (∀ (q : Query) (files1 files2 : List (String × FileRecord)),
        files1.Perm files2 → NormalizedKeys files1 → KeysNodup files1 →
        Search files1 q = Search files2 q) := by
  constructor
  · intro q a b hab
    obtain ⟨γ, instγ, K, hK, hKpath⟩ := searchLess_key q
    have hne : K a ≠ K b := fun h => hab (hKpath a b h)
    rcases lt_or_gt_of_ne hne with h | h
    · left
      refine ⟨(hK a b).mpr h, ?_⟩
      rw [Bool.eq_false_iff]
      intro hba
      exact asymm h ((hK b a).mp hba)
    · right
      refine ⟨(hK b a).mpr h, ?_⟩
      rw [Bool.eq_false_iff]
      intro hab2
      exact asymm h ((hK a b).mp hab2)
  · intro q files1 files2 hperm hnorm hnodup
    obtain ⟨γ, instγ, K, hK, hKpath⟩ := searchLess_key q
    -- the two filtered value lists are permutations of each other
    have hm : (searchMatches files1 q).Perm (searchMatches files2 q) := by
      unfold searchMatches
      exact (hperm.filter _).map _
    -- records surviving the filter have pairwise distinct paths
    have hpaths : ∀ x ∈ searchMatches files1 q, ∀ y ∈ searchMatches files1 q,
        leRec q x y → leRec q y x → x = y := by
      have hkeys : (searchMatches files1 q).Sublist (files1.map (fun e => e.2)) := by
        unfold searchMatches
        exact (List.filter_sublist files1).map _
      have hnd : ((files1.map (fun e => e.2)).map (fun v => v.Path)).Nodup := by
        have : (files1.map (fun e => e.2)).map (fun v => v.Path) =
            files1.map (fun e => e.1) := by
          rw [List.map_map]
          exact List.map_congr_left (fun e he => (hnorm e he).2)
        rw [this]
        exact hnodup
      have hndm : ((searchMatches files1 q).map (fun v => v.Path)).Nodup :=
        List.Nodup.sublist (hkeys.map _) hnd
      intro x hx y hy hxy hyx
      by_contra hne
      have hpne : x.Path ≠ y.Path ∨ x.Path = y.Path := em _ |>.symm.imp id id
      rcases em (x.Path = y.Path) with hpe | hpe
      · -- distinct list elements with equal paths contradict Nodup of paths,
        -- unless they are the same element
        have hinj := List.inj_on_of_nodup_map hndm
        exact hne (hinj hx hy hpe)
      · have hKne : K x ≠ K y := fun h => hpe (hKpath x y h)
        rcases lt_or_gt_of_ne hKne with h | h
        · exact hyx ((hK x y).mpr h)
        · exact hxy ((hK y x).mpr h)
    -- both sorted arrangements coincide
    haveI htot : IsTotal FileRecord (leRec q) := ⟨by
      intro x y
      by_cases h : searchLess q y x = true
      · right
        intro h2
        exact asymm ((hK y x).mp h) ((hK x y).mp h2)
      · left
        exact h⟩
    haveI htrans : IsTrans FileRecord (leRec q) := ⟨by
      intro x y z hxy hyz h2
      have hzx := (hK z x).mp h2
      rcases lt_trichotomy (K z) (K y) with h3 | h3 | h3
      · exact hyz ((hK z y).mpr h3)
      · exact hxy ((hK y x).mpr (h3 ▸ hzx))
      · exact hxy ((hK y x).mpr (lt_trans h3 hzx))⟩
    have hsorted : sortMatches q (searchMatches files1 q) =
        sortMatches q (searchMatches files2 q) := by
      apply eq_of_perm_of_sorted_on (r := leRec q)
      · exact (List.perm_insertionSort _ _).trans
          (hm.trans (List.perm_insertionSort _ _).symm)
      · exact List.sorted_insertionSort _ _
      · exact List.sorted_insertionSort _ _
      · intro x hx y hy
        exact hpaths x ((List.perm_insertionSort _ _).subset hx)
          y ((List.perm_insertionSort _ _).subset hy)
    unfold Search
    dsimp only
    rw [hsorted]

/-- Witness for C2: on two distinct-path records exactly one direction of
the comparator holds, and the two arrangements of a two-record map produce
the same search output. -/
theorem claim_c2_witness :
    ((searchLess ⟨"", 0, 0, 0, 0, "size", true, 0, 0, []⟩
        ⟨"/r/a", "a", 1, 1, "/r"⟩ ⟨"/r/b", "b", 1, 1, "/r"⟩ = true ∧
      searchLess ⟨"", 0, 0, 0, 0, "size", true, 0, 0, []⟩
        ⟨"/r/b", "b", 1, 1, "/r"⟩ ⟨"/r/a", "a", 1, 1, "/r"⟩ = false) ∨
     (searchLess ⟨"", 0, 0, 0, 0, "size", true, 0, 0, []⟩
        ⟨"/r/b", "b", 1, 1, "/r"⟩ ⟨"/r/a", "a", 1, 1, "/r"⟩ = true ∧
      searchLess ⟨"", 0, 0, 0, 0, "size", true, 0, 0, []⟩
        ⟨"/r/a", "a", 1, 1, "/r"⟩ ⟨"/r/b", "b", 1, 1, "/r"⟩ = false))
    ∧ Search [("/r/a", ⟨"/r/a", "a", 1, 1, "/r"⟩), ("/r/b", ⟨"/r/b", "b", 2, 2, "/r"⟩)]
        ⟨"", 0, 0, 0, 0, "size", true, 0, 0, []⟩ =
      Search [("/r/b", ⟨"/r/b", "b", 2, 2, "/r"⟩), ("/r/a", ⟨"/r/a", "a", 1, 1, "/r"⟩)]
        ⟨"", 0, 0, 0, 0, "size", true, 0, 0, []⟩ :=
  ⟨claim_c2_sort_strict_total_order.1 ⟨"", 0, 0, 0, 0, "size", true, 0, 0, []⟩
      ⟨"/r/a", "a", 1, 1, "/r"⟩ ⟨"/r/b", "b", 1, 1, "/r"⟩ (by decide),
   claim_c2_sort_strict_total_order.2 ⟨"", 0, 0, 0, 0, "size", true, 0, 0, []⟩
      [("/r/a", ⟨"/r/a", "a", 1, 1, "/r"⟩), ("/r/b", ⟨"/r/b", "b", 2, 2, "/r"⟩)]
      [("/r/b", ⟨"/r/b", "b", 2, 2, "/r"⟩), ("/r/a", ⟨"/r/a", "a", 1, 1, "/r"⟩)]
      (by decide) (by unfold NormalizedKeys; decide) (by unfold KeysNodup; decide)⟩

end Seekfile
